import Mathlib

/-!
# Tunnel limiter

A shallow embedding of `pkg/smokescreen/tunnel_limiter.go`: a lock-free counter
that bounds the number of concurrently open CONNECT tunnels.

* `int64` values are integers in `[-2^63, 2^63)`; arithmetic on them wraps
  (`wrapInt64`), as Go's does.
* A `*TunnelLimiter` receiver is an `Option TunnelLimiter`; `none` is the nil
  pointer.
* The retry loop of `Acquire` is a recursion on an iteration budget; the
  theorems show that a budget of one iteration is always enough when no other
  caller interferes.
* The concurrent behaviour is a step function on a pool of callers, one step per
  atomic operation of the source.
-/

namespace Smokescreen

/-! ## Machine integers -/

/-- Smallest `int64`. -/
def minInt64 : Int := -9223372036854775808

/-- Largest `int64`. -/
def maxInt64 : Int := 9223372036854775807

/-- The integer is representable as an `int64`. -/
def isInt64 (x : Int) : Prop := minInt64 ≤ x ∧ x ≤ maxInt64

instance (x : Int) : Decidable (isInt64 x) := by
  unfold isInt64
  exact inferInstance

/-- Two's complement reduction of an integer to the `int64` range. -/
def wrapInt64 (x : Int) : Int :=
  (x + 9223372036854775808) % 18446744073709551616 - 9223372036854775808

/-- Go's `+` on `int64`: wraps around on overflow. -/
def addInt64 (a b : Int) : Int := wrapInt64 (a + b)

/-! ## Collaborators -/

/-- Modelled from the spec: the metrics sink behind `Config.MetricsClient`, whose
declaration is outside this package's two files. The spec gives it a single used
operation, "increment named counter by N", with no return value; the sink is the
record of the `Incr` calls it has received, oldest first. -/
structure MetricsSink where
  calls : List (String × Int)
deriving DecidableEq, Repr

/-- Modelled from the spec: `Incr(name, n)` on the metrics sink records the call and
returns nothing. -/
def MetricsSink.Incr (m : MetricsSink) (name : String) (n : Int) : MetricsSink :=
  { calls := m.calls ++ [(name, n)] }

/-- Modelled from the spec: the `Config` type is declared outside this package's two
files; the limiter only reads its `MetricsClient` field, which may be nil. -/
structure Config where
  MetricsClient : Option MetricsSink
deriving DecidableEq, Repr

/-! ## The limiter -/

/-- The `TunnelLimiter` struct. `config` is a pointer and may be nil. -/
structure TunnelLimiter where
  maxTunnels : Int
  activeTunnels : Int
  config : Option Config
deriving DecidableEq, Repr

/-- Both `int64` fields hold `int64` values. -/
def TunnelLimiter.WF (tl : TunnelLimiter) : Prop :=
  isInt64 tl.maxTunnels ∧ isInt64 tl.activeTunnels

instance (tl : TunnelLimiter) : Decidable tl.WF := by
  unfold TunnelLimiter.WF
  exact inferInstance

/-- `NewTunnelLimiter(max, config)`. The conversion `int64(max)` of a Go `int`
preserves the value; `activeTunnels` gets its zero value. -/
def NewTunnelLimiter (max : Int) (config : Option Config) : TunnelLimiter :=
  { maxTunnels := max, activeTunnels := 0, config := config }

/-! ### Atomic primitives of `sync/atomic` on an `int64` cell -/

/-- `atomic.LoadInt64`: the value of the cell. -/
def LoadInt64 (cell : Int) : Int := cell

/-- `atomic.CompareAndSwapInt64`: the new value of the cell and whether the swap
happened. -/
def CompareAndSwapInt64 (cell old new : Int) : Int × Bool :=
  if cell = old then (new, true) else (cell, false)

/-- `atomic.AddInt64`: the new value of the cell. -/
def AddInt64 (cell delta : Int) : Int := addInt64 cell delta

/-- The denial path's metrics call:
`if tl.config != nil && tl.config.MetricsClient != nil { ...Incr(...) }`. -/
def reportLimited (tl : TunnelLimiter) : TunnelLimiter :=
  match tl.config with
  | none => tl
  | some cfg =>
    match cfg.MetricsClient with
    | none => tl
    | some m =>
      { tl with config := some { cfg with
          MetricsClient := some (m.Incr "tunnels.concurrency_limited" 1) } }

/-- The `for` loop of `Acquire`, run by a caller that no other caller interferes
with, for at most `fuel` iterations. `none` means the budget ran out before the
loop returned. -/
def acquireLoop : Nat → TunnelLimiter → Option (TunnelLimiter × Bool)
  | 0, _ => none
  | fuel + 1, tl =>
    let current := LoadInt64 tl.activeTunnels
    if current ≥ tl.maxTunnels then
      some (reportLimited tl, false)
    else
      let r := CompareAndSwapInt64 tl.activeTunnels current (addInt64 current 1)
      if r.2 then
        some ({ tl with activeTunnels := r.1 }, true)
      else
        acquireLoop fuel { tl with activeTunnels := r.1 }

/-- `(*TunnelLimiter).Acquire`, with an iteration budget for its loop. The result
is the receiver after the call and the returned boolean. -/
def Acquire (fuel : Nat) : Option TunnelLimiter → Option (Option TunnelLimiter × Bool)
  | none => some (none, true)
  | some tl =>
    if tl.maxTunnels ≤ 0 then
      some (some tl, true)
    else
      (acquireLoop fuel tl).map (fun r => (some r.1, r.2))

/-- `(*TunnelLimiter).Release`: the receiver after the call. -/
def Release : Option TunnelLimiter → Option TunnelLimiter
  | none => none
  | some tl =>
    if tl.maxTunnels ≤ 0 then
      some tl
    else
      some { tl with activeTunnels := AddInt64 tl.activeTunnels (-1) }

/-- `(*TunnelLimiter).ActiveCount`. -/
def ActiveCount : Option TunnelLimiter → Int
  | none => 0
  | some tl => LoadInt64 tl.activeTunnels

/-- `(*TunnelLimiter).MaxTunnels`. -/
def MaxTunnels : Option TunnelLimiter → Int
  | none => 0
  | some tl => tl.maxTunnels

/-! ### Sequences of calls -/

/-- A call on the limiter's API. -/
inductive Call where
  | acquire
  | release
  | activeCount
  | maxTunnels
deriving DecidableEq, Repr

/-- What a call returned. -/
inductive Ret where
  | bool (b : Bool)
  | unit
  | int (n : Int)
deriving DecidableEq, Repr

/-- One call: the receiver afterwards and the returned value. Every `Acquire` gets
the iteration budget `fuel`. -/
def call (fuel : Nat) (tl : Option TunnelLimiter) : Call → Option (Option TunnelLimiter × Ret)
  | .acquire => (Acquire fuel tl).map (fun r => (r.1, Ret.bool r.2))
  | .release => some (Release tl, Ret.unit)
  | .activeCount => some (tl, Ret.int (ActiveCount tl))
  | .maxTunnels => some (tl, Ret.int (MaxTunnels tl))

/-- A sequence of calls made one after the other by a single caller: the receiver
at the end and the returned values in order. -/
def calls (fuel : Nat) (tl : Option TunnelLimiter) : List Call → Option (Option TunnelLimiter × List Ret)
  | [] => some (tl, [])
  | c :: cs =>
    match call fuel tl c with
    | none => none
    | some (tl1, r) =>
      match calls fuel tl1 cs with
      | none => none
      | some (tl2, rs) => some (tl2, r :: rs)

/-- Slots acquired and not yet released by a caller who made the calls `cs` and got
the values `rs` back: each `Acquire` that returned `true` takes one, each `Release`
gives one back. `none` when the caller broke the discipline, releasing with no
slot of its own outstanding. -/
def outstanding : List Call → List Ret → Nat → Option Nat
  | [], _, held => some held
  | .acquire :: cs, .bool true :: rs, held => outstanding cs rs (held + 1)
  | .release :: cs, _ :: rs, held =>
    match held with
    | 0 => none
    | h + 1 => outstanding cs rs h
  | _ :: cs, _ :: rs, held => outstanding cs rs held
  | _ :: _, [], _ => none

/-! ### Concurrent callers of `Acquire` -/

/-- Where a caller of `Acquire` stands between two atomic operations. -/
inductive Pc where
  /-- Called, about to test `tl == nil || tl.maxTunnels <= 0`. -/
  | entry
  /-- At the top of the loop, about to load `activeTunnels`. -/
  | load
  /-- Holds `current`, below capacity when loaded; about to compare-and-swap. -/
  | cas (current : Int)
  /-- Returned `b`. -/
  | done (b : Bool)
deriving DecidableEq, Repr

/-- One atomic step of a caller on the shared limiter. A caller that has returned
stays where it is. -/
def stepPc (tl : TunnelLimiter) : Pc → TunnelLimiter × Pc
  | .entry => if tl.maxTunnels ≤ 0 then (tl, .done true) else (tl, .load)
  | .load =>
    let current := LoadInt64 tl.activeTunnels
    if current ≥ tl.maxTunnels then (reportLimited tl, .done false)
    else (tl, .cas current)
  | .cas current =>
    let r := CompareAndSwapInt64 tl.activeTunnels current (addInt64 current 1)
    if r.2 then ({ tl with activeTunnels := r.1 }, .done true)
    else ({ tl with activeTunnels := r.1 }, .load)
  | .done b => (tl, .done b)

/-- A shared limiter and the callers of `Acquire` on it. -/
structure Pool where
  tl : TunnelLimiter
  pcs : List Pc
deriving DecidableEq, Repr

/-- `G` callers that have each just called `Acquire` on the limiter. -/
def Pool.start (tl : TunnelLimiter) (G : Nat) : Pool :=
  { tl := tl, pcs := List.replicate G Pc.entry }

/-- The scheduler lets caller `i` take its next atomic step. -/
def Pool.step (p : Pool) (i : Nat) : Pool :=
  match p.pcs[i]? with
  | none => p
  | some pc =>
    let r := stepPc p.tl pc
    { tl := r.1, pcs := p.pcs.set i r.2 }

/-- An interleaving: the callers scheduled one after the other. -/
def Pool.run (p : Pool) (sched : List Nat) : Pool :=
  sched.foldl Pool.step p

/-- How many callers have returned `b`. -/
def Pool.returned (p : Pool) (b : Bool) : Nat :=
  p.pcs.count (Pc.done b)

/-- Every caller has returned. -/
def Pool.allDone (p : Pool) : Prop :=
  ∀ pc ∈ p.pcs, ∃ b, pc = Pc.done b

instance (p : Pool) : Decidable p.allDone := by
  unfold Pool.allDone
  exact inferInstance

/-- Caller `i` exists and has not returned yet. -/
def Pool.enabled (p : Pool) (i : Nat) : Bool :=
  match p.pcs[i]? with
  | none => false
  | some (Pc.done _) => false
  | some _ => true

/-- An interleaving in which every scheduled caller really takes a step. -/
def Pool.scheduled (p : Pool) : List Nat → Prop
  | [] => True
  | i :: rest => p.enabled i = true ∧ (p.step i).scheduled rest

instance Pool.decidableScheduled (p : Pool) (sched : List Nat) : Decidable (p.scheduled sched) := by
  induction sched generalizing p with
  | nil => exact isTrue trivial
  | cons i rest ih =>
    unfold Pool.scheduled
    have := ih (p.step i)
    exact inferInstance

/-- What holds of every pool reached by callers of `Acquire` on a fresh gate of
capacity `N`: the live count is the number of callers that were admitted, it is
at most `N`, a caller about to compare-and-swap holds a value below `N`, and once
a caller has been denied the gate is full. -/
def Pool.Inv (N : Int) (p : Pool) : Prop :=
  p.tl.maxTunnels = N ∧
  p.tl.activeTunnels = (p.returned true : Int) ∧
  p.tl.activeTunnels ≤ N ∧
  (∀ c, Pc.cas c ∈ p.pcs → c < N) ∧
  (Pc.done false ∈ p.pcs → p.tl.activeTunnels = N)

/-- A bound on the steps a caller still takes before it returns or the live count
changes, given the live count: a caller whose loaded value is stale will fail
its compare-and-swap and go round the loop again. -/
def Pc.weight (active : Int) : Pc → Nat
  | .entry => 4
  | .load => 3
  | .cas current => if current = active then 1 else 4
  | .done _ => 0

/-- A quantity that every step of every caller decreases: each slot still free
pays for one more round of every caller. -/
def Pool.potential (p : Pool) : Nat :=
  3 * p.pcs.length * (p.tl.maxTunnels - p.tl.activeTunnels).toNat +
    (p.pcs.map (Pc.weight p.tl.activeTunnels)).sum

/-- The schedule in which the callers run one after the other, each to the end:
three steps are enough for a caller that nobody interferes with. -/
def sequentialSchedule : Nat → List Nat
  | 0 => []
  | G + 1 => sequentialSchedule G ++ [G, G, G]

/-! ### Observations on a run -/

/-- The `Incr` calls the metrics sink of the gate has received, oldest first; none
when the gate, its config or the sink is nil. -/
def metricsLog : Option TunnelLimiter → List (String × Int)
  | none => []
  | some tl =>
    match tl.config with
    | none => []
    | some cfg =>
      match cfg.MetricsClient with
      | none => []
      | some m => m.calls

/-- How many `Acquire` calls of a run returned `true`. -/
def admitted (rs : List Ret) : Nat := rs.count (Ret.bool true)

/-- How many `Release` calls a run makes. -/
def released (cs : List Call) : Nat := cs.count Call.release

/-! ## Basic facts -/

theorem wrapInt64_of_isInt64 {x : Int} (h : isInt64 x) : wrapInt64 x = x := by
  unfold isInt64 minInt64 maxInt64 at h
  unfold wrapInt64
  omega

theorem isInt64_wrapInt64 (x : Int) : isInt64 (wrapInt64 x) := by
  unfold isInt64 minInt64 maxInt64 wrapInt64
  omega

/-- One iteration of the loop always returns: the compare-and-swap is on the value
just loaded. -/
theorem acquireLoop_succ (fuel : Nat) (tl : TunnelLimiter) :
    acquireLoop (fuel + 1) tl =
      if tl.activeTunnels ≥ tl.maxTunnels then some (reportLimited tl, false)
      else some ({ tl with activeTunnels := addInt64 tl.activeTunnels 1 }, true) := by
  simp [acquireLoop, LoadInt64, CompareAndSwapInt64]

theorem reportLimited_maxTunnels (tl : TunnelLimiter) :
    (reportLimited tl).maxTunnels = tl.maxTunnels := by
  unfold reportLimited
  split
  · rfl
  · split <;> rfl

theorem reportLimited_activeTunnels (tl : TunnelLimiter) :
    (reportLimited tl).activeTunnels = tl.activeTunnels := by
  unfold reportLimited
  split
  · rfl
  · split <;> rfl

theorem Acquire_enabled (fuel : Nat) (tl : TunnelLimiter) (h : 0 < tl.maxTunnels) :
    Acquire (fuel + 1) (some tl) =
      if tl.activeTunnels ≥ tl.maxTunnels then some (some (reportLimited tl), false)
      else some (some { tl with activeTunnels := addInt64 tl.activeTunnels 1 }, true) := by
  have h0 : ¬ tl.maxTunnels ≤ 0 := by omega
  simp only [Acquire, h0, if_false, acquireLoop_succ]
  split <;> rfl

/-- Below capacity, on `int64` values, the increment of `Acquire` does not wrap. -/
theorem addInt64_one_of_lt {a m : Int} (ha : isInt64 a) (hm : isInt64 m) (h : a < m) :
    addInt64 a 1 = a + 1 := by
  unfold isInt64 minInt64 maxInt64 at ha hm
  unfold addInt64 wrapInt64
  omega

/-- Above the smallest `int64`, the decrement of `Release` does not wrap. -/
theorem addInt64_neg_one_of_lt {a : Int} (ha : isInt64 a) (h : minInt64 < a) :
    addInt64 a (-1) = a - 1 := by
  unfold isInt64 minInt64 maxInt64 at ha
  unfold minInt64 at h
  unfold addInt64 wrapInt64
  omega

/-! ## Sequences of calls by one caller -/

theorem calls_cons (fuel : Nat) (tl : Option TunnelLimiter) (c : Call) (cs : List Call) :
    calls fuel tl (c :: cs) =
      (call fuel tl c).bind (fun r1 =>
        (calls fuel r1.1 cs).bind (fun r2 => some (r2.1, r1.2 :: r2.2))) := by
  rw [calls]
  cases hc : call fuel tl c with
  | none => rfl
  | some r1 =>
    obtain ⟨t1, x⟩ := r1
    cases hcs : calls fuel t1 cs with
    | none => simp [hcs]
    | some r2 => simp [hcs]

theorem calls_append (fuel : Nat) (tl : Option TunnelLimiter) (cs1 cs2 : List Call) :
    calls fuel tl (cs1 ++ cs2) =
      (calls fuel tl cs1).bind (fun r1 =>
        (calls fuel r1.1 cs2).bind (fun r2 => some (r2.1, r1.2 ++ r2.2))) := by
  induction cs1 generalizing tl with
  | nil =>
    simp only [List.nil_append, calls, Option.some_bind]
    cases calls fuel tl cs2 <;> simp
  | cons c cs ih =>
    rw [List.cons_append, calls_cons, calls_cons]
    cases hc : call fuel tl c with
    | none => rfl
    | some r1 =>
      simp only [Option.some_bind]
      rw [ih]
      cases calls fuel r1.1 cs with
      | none => rfl
      | some r2 =>
        simp only [Option.some_bind]
        cases calls fuel r2.1 cs2 <;> simp

theorem call_acquire_below (fuel : Nat) (tl : TunnelLimiter) (hwf : tl.WF)
    (h : tl.activeTunnels < tl.maxTunnels) (hpos : 0 < tl.maxTunnels) :
    call (fuel + 1) (some tl) Call.acquire =
      some (some { tl with activeTunnels := tl.activeTunnels + 1 }, Ret.bool true) := by
  have hc : ¬ tl.activeTunnels ≥ tl.maxTunnels := by omega
  simp [call, Acquire_enabled fuel tl hpos, hc, addInt64_one_of_lt hwf.2 hwf.1 h]

theorem call_acquire_full (fuel : Nat) (tl : TunnelLimiter)
    (h : tl.activeTunnels ≥ tl.maxTunnels) (hpos : 0 < tl.maxTunnels) :
    call (fuel + 1) (some tl) Call.acquire = some (some (reportLimited tl), Ret.bool false) := by
  simp [call, Acquire_enabled fuel tl hpos, h]

/-- While there is room, every `Acquire` of a run succeeds and adds one. -/
theorem calls_acquire_below (fuel : Nat) (k : Nat) (tl : TunnelLimiter) (hwf : tl.WF)
    (hpos : 0 < tl.maxTunnels) (h : tl.activeTunnels + k ≤ tl.maxTunnels) :
    calls (fuel + 1) (some tl) (List.replicate k Call.acquire) =
      some (some { tl with activeTunnels := tl.activeTunnels + k },
        List.replicate k (Ret.bool true)) := by
  induction k generalizing tl with
  | zero => simp [calls]
  | succ k ih =>
    push_cast at h
    have hlt : tl.activeTunnels < tl.maxTunnels := by omega
    have hwf1 : ({ tl with activeTunnels := tl.activeTunnels + 1 } : TunnelLimiter).WF := by
      have h1 := hwf.1
      have h2 := hwf.2
      unfold isInt64 minInt64 maxInt64 at h1 h2
      refine ⟨hwf.1, ?_⟩
      unfold isInt64 minInt64 maxInt64
      constructor <;> simp only <;> omega
    rw [List.replicate_succ, calls_cons, call_acquire_below fuel tl hwf hlt hpos]
    simp only [Option.some_bind]
    rw [ih _ hwf1 hpos (by simp only; omega)]
    simp only [Option.some_bind, List.replicate_succ]
    have e : tl.activeTunnels + 1 + (k : Int) = tl.activeTunnels + ((k + 1 : Nat) : Int) := by
      push_cast
      omega
    rw [e]

/-- On a full gate every `Acquire` of a run is denied and the count stays. -/
theorem calls_acquire_full (fuel : Nat) (m : Nat) (tl : TunnelLimiter)
    (hpos : 0 < tl.maxTunnels) (h : tl.activeTunnels ≥ tl.maxTunnels) :
    ∃ tl', calls (fuel + 1) (some tl) (List.replicate m Call.acquire) =
        some (some tl', List.replicate m (Ret.bool false)) ∧
      tl'.activeTunnels = tl.activeTunnels ∧ tl'.maxTunnels = tl.maxTunnels := by
  induction m generalizing tl with
  | zero => exact ⟨tl, by simp [calls], rfl, rfl⟩
  | succ m ih =>
    have ha := reportLimited_activeTunnels tl
    have hm := reportLimited_maxTunnels tl
    obtain ⟨tl', hrun, h1, h2⟩ := ih (reportLimited tl) (by omega) (by omega)
    refine ⟨tl', ?_, by omega, by omega⟩
    rw [List.replicate_succ, calls_cons, call_acquire_full fuel tl h hpos]
    simp only [Option.some_bind]
    rw [hrun]
    simp [List.replicate_succ]

theorem Release_enabled (tl : TunnelLimiter) (h : 0 < tl.maxTunnels) :
    Release (some tl) = some { tl with activeTunnels := addInt64 tl.activeTunnels (-1) } := by
  have h0 : ¬ tl.maxTunnels ≤ 0 := by omega
  simp [Release, h0, AddInt64]

theorem bind_cons_eq_some {x : Option (Option TunnelLimiter × List Ret)} {r : Ret}
    {tl' : Option TunnelLimiter} {rs : List Ret}
    (h : x.bind (fun r2 => some (r2.1, r :: r2.2)) = some (tl', rs)) :
    ∃ rs', rs = r :: rs' ∧ x = some (tl', rs') := by
  cases x with
  | none => simp at h
  | some r2 =>
    simp only [Option.some_bind, Option.some.injEq, Prod.mk.injEq] at h
    exact ⟨r2.2, h.2.symm, by rw [← h.1]⟩

/-- With a budget of at least one iteration per `Acquire`, every sequence of calls
runs to its end. -/
theorem calls_total (fuel : Nat) (cs : List Call) (tl : Option TunnelLimiter) :
    ∃ tl' rs, calls (fuel + 1) tl cs = some (tl', rs) := by
  induction cs generalizing tl with
  | nil => exact ⟨tl, [], rfl⟩
  | cons c cs ih =>
    have hc : ∃ t1 r, call (fuel + 1) tl c = some (t1, r) := by
      cases c with
      | acquire =>
        cases tl with
        | none => exact ⟨none, Ret.bool true, by simp [call, Acquire]⟩
        | some t =>
          by_cases h0 : t.maxTunnels ≤ 0
          · exact ⟨some t, Ret.bool true, by simp [call, Acquire, h0]⟩
          · rw [call, Acquire_enabled fuel t (by omega)]
            split
            · exact ⟨_, _, rfl⟩
            · exact ⟨_, _, rfl⟩
      | release => exact ⟨_, _, rfl⟩
      | activeCount => exact ⟨_, _, rfl⟩
      | maxTunnels => exact ⟨_, _, rfl⟩
    obtain ⟨t1, r, hc⟩ := hc
    obtain ⟨t2, rs, hcs⟩ := ih t1
    exact ⟨t2, r :: rs, by rw [calls_cons, hc]; simp [hcs]⟩

/-- The fields of the gate stay `int64` values under `Release`. -/
theorem Release_WF (tl tl' : TunnelLimiter) (hwf : tl.WF) (h : Release (some tl) = some tl') :
    tl'.WF := by
  by_cases h0 : tl.maxTunnels ≤ 0
  · simp only [Release, h0, if_true, Option.some.injEq] at h
    rw [← h]
    exact hwf
  · rw [Release_enabled tl (by omega)] at h
    simp only [Option.some.injEq] at h
    rw [← h]
    exact ⟨hwf.1, isInt64_wrapInt64 _⟩

/-- The fields of the gate stay `int64` values under `Acquire`. -/
theorem Acquire_WF (fuel : Nat) (tl tl' : TunnelLimiter) (b : Bool) (hwf : tl.WF)
    (h : Acquire (fuel + 1) (some tl) = some (some tl', b)) : tl'.WF := by
  by_cases h0 : tl.maxTunnels ≤ 0
  · simp only [Acquire, h0, if_true, Option.some.injEq, Prod.mk.injEq] at h
    rw [← h.1]
    exact hwf
  · rw [Acquire_enabled fuel tl (by omega)] at h
    by_cases hfull : tl.activeTunnels ≥ tl.maxTunnels
    · simp only [hfull, if_true, Option.some.injEq, Prod.mk.injEq] at h
      rw [← h.1]
      exact ⟨by rw [reportLimited_maxTunnels]; exact hwf.1,
        by rw [reportLimited_activeTunnels]; exact hwf.2⟩
    · simp only [hfull, if_false, Option.some.injEq, Prod.mk.injEq] at h
      rw [← h.1]
      exact ⟨hwf.1, isInt64_wrapInt64 _⟩

/-- A caller who keeps the discipline holds exactly the live count of slots, and
never more than the capacity. -/
theorem calls_disciplined (fuel : Nat) (N : Nat) (hN : 0 < N) (hmax : isInt64 (N : Int))
    (cs : List Call) (tl : TunnelLimiter) (held : Nat)
    (hm : tl.maxTunnels = N) (ha : tl.activeTunnels = held) (hle : held ≤ N)
    (tl' : Option TunnelLimiter) (rs : List Ret)
    (hrun : calls (fuel + 1) (some tl) cs = some (tl', rs))
    (h : Nat) (hout : outstanding cs rs held = some h) :
    MaxTunnels tl' = N ∧ ActiveCount tl' = h ∧ h ≤ N := by
  have hb := hmax
  unfold isInt64 minInt64 maxInt64 at hb
  induction cs generalizing tl held rs with
  | nil =>
    simp only [calls, Option.some.injEq, Prod.mk.injEq] at hrun
    simp only [outstanding, Option.some.injEq] at hout
    subst hout
    rw [← hrun.1]
    exact ⟨hm, ha, hle⟩
  | cons c cs ih =>
    have hpos : 0 < tl.maxTunnels := by omega
    have hwf : tl.WF := by
      refine ⟨by rw [hm]; exact hmax, ?_⟩
      unfold isInt64 minInt64 maxInt64
      omega
    rw [calls_cons] at hrun
    cases c with
    | acquire =>
      by_cases hlt : tl.activeTunnels < tl.maxTunnels
      · rw [call_acquire_below fuel tl hwf hlt hpos] at hrun
        obtain ⟨rs', hrs, hrun'⟩ := bind_cons_eq_some hrun
        subst hrs
        simp only [outstanding] at hout
        exact ih { tl with activeTunnels := tl.activeTunnels + 1 } (held + 1) hm
          (by simp only; push_cast; omega) (by omega) rs' hrun' hout
      · rw [call_acquire_full fuel tl (by omega) hpos] at hrun
        obtain ⟨rs', hrs, hrun'⟩ := bind_cons_eq_some hrun
        subst hrs
        simp only [outstanding] at hout
        exact ih (reportLimited tl) held (by rw [reportLimited_maxTunnels, hm])
          (by rw [reportLimited_activeTunnels, ha]) hle rs' hrun' hout
    | release =>
      simp only [call, Option.some_bind] at hrun
      obtain ⟨rs', hrs, hrun'⟩ := bind_cons_eq_some hrun
      subst hrs
      cases held with
      | zero => simp [outstanding] at hout
      | succ g =>
        push_cast at ha
        simp only [outstanding] at hout
        rw [Release_enabled tl hpos] at hrun'
        exact ih { tl with activeTunnels := addInt64 tl.activeTunnels (-1) } g hm
          (by
            simp only
            rw [addInt64_neg_one_of_lt hwf.2 (by unfold minInt64; omega)]
            omega) (by omega) rs' hrun' hout
    | activeCount =>
      simp only [call, Option.some_bind] at hrun
      obtain ⟨rs', hrs, hrun'⟩ := bind_cons_eq_some hrun
      subst hrs
      simp only [outstanding] at hout
      exact ih tl held hm ha hle rs' hrun' hout
    | maxTunnels =>
      simp only [call, Option.some_bind] at hrun
      obtain ⟨rs', hrs, hrun'⟩ := bind_cons_eq_some hrun
      subst hrs
      simp only [outstanding] at hout
      exact ih tl held hm ha hle rs' hrun' hout

/-- A call on a disabled gate, nil or with capacity ≤ 0, changes nothing; `Acquire`
admits. -/
theorem call_disabled (fuel : Nat) (tl : Option TunnelLimiter) (h : MaxTunnels tl ≤ 0)
    (c : Call) :
    call fuel tl c = some (tl,
      match c with
      | Call.acquire => Ret.bool true
      | Call.release => Ret.unit
      | Call.activeCount => Ret.int (ActiveCount tl)
      | Call.maxTunnels => Ret.int (MaxTunnels tl)) := by
  cases tl with
  | none => cases c <;> simp [call, Acquire, Release]
  | some t =>
    simp only [MaxTunnels] at h
    cases c <;> simp [call, Acquire, Release, h]

/-- A sequence of calls on a disabled gate changes nothing and admits every time. -/
theorem calls_disabled (fuel : Nat) (tl : Option TunnelLimiter) (h : MaxTunnels tl ≤ 0)
    (cs : List Call) :
    calls fuel tl cs = some (tl, cs.map (fun c =>
      match c with
      | Call.acquire => Ret.bool true
      | Call.release => Ret.unit
      | Call.activeCount => Ret.int (ActiveCount tl)
      | Call.maxTunnels => Ret.int (MaxTunnels tl))) := by
  induction cs with
  | nil => rfl
  | cons c cs ih =>
    rw [calls_cons, call_disabled fuel tl h c]
    simp [ih]

theorem wrapInt64_add_wrap (x y : Int) : wrapInt64 (wrapInt64 x + y) = wrapInt64 (x + y) := by
  unfold wrapInt64
  omega

/-- A run of `Release` calls on an enabled gate takes the live count down one at a
time, in `int64` arithmetic. -/
theorem calls_release_wrap (fuel : Nat) (k : Nat) (tl : TunnelLimiter)
    (hpos : 0 < tl.maxTunnels) (ha : isInt64 tl.activeTunnels) :
    calls fuel (some tl) (List.replicate k Call.release) =
      some (some { tl with activeTunnels := wrapInt64 (tl.activeTunnels - k) },
        List.replicate k Ret.unit) := by
  induction k generalizing tl with
  | zero =>
    have e : wrapInt64 (tl.activeTunnels - ((0 : Nat) : Int)) = tl.activeTunnels := by
      rw [Int.ofNat_zero, Int.sub_zero]
      exact wrapInt64_of_isInt64 ha
    rw [e]
    rfl
  | succ k ih =>
    rw [List.replicate_succ, calls_cons]
    simp only [call, Option.some_bind, Release_enabled tl hpos]
    rw [ih { tl with activeTunnels := addInt64 tl.activeTunnels (-1) } hpos
      (isInt64_wrapInt64 (tl.activeTunnels + -1))]
    have e : wrapInt64 (addInt64 tl.activeTunnels (-1) - (k : Int)) =
        wrapInt64 (tl.activeTunnels - ((k + 1 : Nat) : Int)) := by
      unfold addInt64 wrapInt64
      push_cast
      omega
    simp only [Option.some_bind, List.replicate_succ, e]

/-- A call on a non-nil gate returns and leaves the gate non-nil with the capacity
it had; `MaxTunnels` reports that capacity. -/
theorem call_some (fuel : Nat) (t : TunnelLimiter) (c : Call) :
    ∃ t' r, call (fuel + 1) (some t) c = some (some t', r) ∧
      t'.maxTunnels = t.maxTunnels ∧ (c = Call.maxTunnels → r = Ret.int t.maxTunnels) := by
  cases c with
  | acquire =>
    by_cases h0 : t.maxTunnels ≤ 0
    · exact ⟨t, Ret.bool true, by simp [call, Acquire, h0], rfl, by intro h; cases h⟩
    · rw [call, Acquire_enabled fuel t (by omega)]
      by_cases hfull : t.activeTunnels ≥ t.maxTunnels
      · exact ⟨reportLimited t, Ret.bool false, by simp [hfull], reportLimited_maxTunnels t,
          by intro h; cases h⟩
      · exact ⟨{ t with activeTunnels := addInt64 t.activeTunnels 1 }, Ret.bool true,
          by simp [hfull], rfl, by intro h; cases h⟩
  | release =>
    by_cases h0 : t.maxTunnels ≤ 0
    · exact ⟨t, Ret.unit, by simp [call, Release, h0], rfl, by intro h; cases h⟩
    · exact ⟨{ t with activeTunnels := addInt64 t.activeTunnels (-1) }, Ret.unit,
        by simp [call, Release_enabled t (by omega)], rfl, by intro h; cases h⟩
  | activeCount => exact ⟨t, _, rfl, rfl, by intro h; cases h⟩
  | maxTunnels => exact ⟨t, _, rfl, rfl, fun _ => rfl⟩

/-- No call of a run changes the capacity, and every `MaxTunnels` call of the run
reports it. -/
theorem calls_maxTunnels (fuel : Nat) (cs : List Call) (t : TunnelLimiter) :
    ∃ t' rs, calls (fuel + 1) (some t) cs = some (some t', rs) ∧
      t'.maxTunnels = t.maxTunnels ∧ rs.length = cs.length ∧
      ∀ i : Nat, cs[i]? = some Call.maxTunnels → rs[i]? = some (Ret.int t.maxTunnels) := by
  induction cs generalizing t with
  | nil => exact ⟨t, [], rfl, rfl, rfl, by intro i h; simp at h⟩
  | cons c cs ih =>
    obtain ⟨t1, r, hc, hm1, hr⟩ := call_some fuel t c
    obtain ⟨t2, rs, hcs, hm2, hlen, hall⟩ := ih t1
    refine ⟨t2, r :: rs, ?_, by rw [hm2, hm1], by simp [hlen], ?_⟩
    · rw [calls_cons, hc]
      simp [hcs]
    · intro i hi
      cases i with
      | zero =>
        simp only [List.getElem?_cons_zero, Option.some.injEq] at hi
        simp only [List.getElem?_cons_zero, hr hi]
      | succ j =>
        simp only [List.getElem?_cons_succ] at hi
        simp only [List.getElem?_cons_succ]
        rw [← hm1]
        exact hall j hi

/-- A call returns the same value and leaves the same count and capacity whatever
the config of the gate. -/
theorem call_config_irrelevant (fuel : Nat) (t1 t2 : TunnelLimiter)
    (hm : t1.maxTunnels = t2.maxTunnels) (ha : t1.activeTunnels = t2.activeTunnels) (c : Call) :
    ∃ t1' t2' r, call (fuel + 1) (some t1) c = some (some t1', r) ∧
      call (fuel + 1) (some t2) c = some (some t2', r) ∧
      t1'.maxTunnels = t2'.maxTunnels ∧ t1'.activeTunnels = t2'.activeTunnels := by
  cases c with
  | acquire =>
    by_cases h0 : t1.maxTunnels ≤ 0
    · have h0' : t2.maxTunnels ≤ 0 := by omega
      exact ⟨t1, t2, Ret.bool true, by simp [call, Acquire, h0], by simp [call, Acquire, h0'],
        hm, ha⟩
    · rw [call, call, Acquire_enabled fuel t1 (by omega), Acquire_enabled fuel t2 (by omega)]
      by_cases hfull : t1.activeTunnels ≥ t1.maxTunnels
      · have hfull' : t2.activeTunnels ≥ t2.maxTunnels := by omega
        refine ⟨reportLimited t1, reportLimited t2, Ret.bool false, by simp [hfull],
          by simp [hfull'], ?_, ?_⟩
        · rw [reportLimited_maxTunnels, reportLimited_maxTunnels, hm]
        · rw [reportLimited_activeTunnels, reportLimited_activeTunnels, ha]
      · have hfull' : ¬ t2.activeTunnels ≥ t2.maxTunnels := by omega
        refine ⟨{ t1 with activeTunnels := addInt64 t1.activeTunnels 1 },
          { t2 with activeTunnels := addInt64 t2.activeTunnels 1 }, Ret.bool true,
          by simp [hfull], by simp [hfull'], hm, ?_⟩
        simp only [ha]
  | release =>
    by_cases h0 : t1.maxTunnels ≤ 0
    · have h0' : t2.maxTunnels ≤ 0 := by omega
      exact ⟨t1, t2, Ret.unit, by simp [call, Release, h0], by simp [call, Release, h0'],
        hm, ha⟩
    · refine ⟨{ t1 with activeTunnels := addInt64 t1.activeTunnels (-1) },
        { t2 with activeTunnels := addInt64 t2.activeTunnels (-1) }, Ret.unit,
        by simp [call, Release_enabled t1 (by omega)],
        by simp [call, Release_enabled t2 (by omega)], hm, ?_⟩
      simp only [ha]
  | activeCount =>
    exact ⟨t1, t2, Ret.int t1.activeTunnels, rfl,
      by simp [call, ActiveCount, LoadInt64, ha], hm, ha⟩
  | maxTunnels =>
    exact ⟨t1, t2, Ret.int t1.maxTunnels, rfl, by simp [call, MaxTunnels, hm], hm, ha⟩

/-- A run returns the same values and ends with the same count and capacity
whatever the config of the gate. -/
theorem calls_config_irrelevant (fuel : Nat) (cs : List Call) (t1 t2 : TunnelLimiter)
    (hm : t1.maxTunnels = t2.maxTunnels) (ha : t1.activeTunnels = t2.activeTunnels) :
    ∃ t1' t2' rs, calls (fuel + 1) (some t1) cs = some (some t1', rs) ∧
      calls (fuel + 1) (some t2) cs = some (some t2', rs) ∧
      t1'.maxTunnels = t2'.maxTunnels ∧ t1'.activeTunnels = t2'.activeTunnels := by
  induction cs generalizing t1 t2 with
  | nil => exact ⟨t1, t2, [], rfl, rfl, hm, ha⟩
  | cons c cs ih =>
    obtain ⟨u1, u2, r, h1, h2, hm', ha'⟩ := call_config_irrelevant fuel t1 t2 hm ha c
    obtain ⟨v1, v2, rs, k1, k2, hm'', ha''⟩ := ih u1 u2 hm' ha'
    refine ⟨v1, v2, r :: rs, ?_, ?_, hm'', ha''⟩
    · rw [calls_cons, h1]
      simp [k1]
    · rw [calls_cons, h2]
      simp [k2]

theorem admitted_cons (r : Ret) (rs : List Ret) :
    admitted (r :: rs) = admitted rs + (if r = Ret.bool true then 1 else 0) := by
  simp [admitted, List.count_cons]

theorem released_cons (c : Call) (cs : List Call) :
    released (c :: cs) = released cs + (if c = Call.release then 1 else 0) := by
  simp [released, List.count_cons]

theorem admitted_replicate_unit (k : Nat) : admitted (List.replicate k Ret.unit) = 0 := by
  induction k with
  | zero => rfl
  | succ k ih => rw [List.replicate_succ, admitted_cons, ih]; rfl

theorem released_replicate_release (k : Nat) :
    released (List.replicate k Call.release) = k := by
  induction k with
  | zero => rfl
  | succ k ih => rw [List.replicate_succ, released_cons, ih]; rfl

theorem released_take_le (cs : List Call) (k : Nat) : released (cs.take k) ≤ released cs :=
  (List.take_sublist k cs).count_le Call.release

/-- Slot conservation in `int64` arithmetic. From a state whose live count is `d`
reduced to `int64`, with `d` at most the capacity, a run ends with the live count
`d` + admitted − released reduced to `int64`, and that sum is again at most the
capacity. -/
theorem calls_conservation (fuel : Nat) (cs : List Call) (t : TunnelLimiter)
    (hpos : 0 < t.maxTunnels) (hmax : isInt64 t.maxTunnels) (d : Int)
    (hd : t.activeTunnels = wrapInt64 d) (hle : d ≤ t.maxTunnels) :
    ∃ t' rs, calls (fuel + 1) (some t) cs = some (some t', rs) ∧
      t'.maxTunnels = t.maxTunnels ∧
      t'.activeTunnels = wrapInt64 (d + admitted rs - released cs) ∧
      d + admitted rs - released cs ≤ t.maxTunnels := by
  induction cs generalizing t d with
  | nil =>
    refine ⟨t, [], rfl, rfl, ?_, ?_⟩
    · simp only [admitted, released, List.count_nil, Int.ofNat_zero, Int.add_zero, Int.sub_zero]
      exact hd
    · simp only [admitted, released, List.count_nil, Int.ofNat_zero, Int.add_zero, Int.sub_zero]
      exact hle
  | cons c cs ih =>
    have hb := hmax
    unfold isInt64 minInt64 maxInt64 at hb
    cases c with
    | acquire =>
      by_cases hfull : t.activeTunnels ≥ t.maxTunnels
      · obtain ⟨t', rs, hrun, hm, ha, hle'⟩ := ih (reportLimited t)
          (by rw [reportLimited_maxTunnels]; exact hpos)
          (by rw [reportLimited_maxTunnels]; exact hmax) d
          (by rw [reportLimited_activeTunnels]; exact hd)
          (by rw [reportLimited_maxTunnels]; exact hle)
        rw [reportLimited_maxTunnels] at hm hle'
        refine ⟨t', Ret.bool false :: rs, ?_, hm, ?_, ?_⟩
        · rw [calls_cons, call_acquire_full fuel t hfull hpos]
          simp [hrun]
        · rw [ha, admitted_cons, released_cons]
          simp
        · rw [admitted_cons, released_cons]
          simpa using hle'
      · have hlt : d + 1 ≤ t.maxTunnels := by
          unfold wrapInt64 at hd
          omega
        obtain ⟨t', rs, hrun, hm, ha, hle'⟩ :=
          ih { t with activeTunnels := addInt64 t.activeTunnels 1 } hpos hmax (d + 1)
            (by
              simp only [hd, addInt64]
              exact wrapInt64_add_wrap d 1) hlt
        refine ⟨t', Ret.bool true :: rs, ?_, hm, ?_, ?_⟩
        · rw [calls_cons, call, Acquire_enabled fuel t hpos]
          simp [hfull, hrun]
        · rw [ha, admitted_cons, released_cons]
          congr 1
          simp only [if_true, reduceCtorEq, if_false]
          push_cast
          omega
        · rw [admitted_cons, released_cons]
          simp only [if_true, reduceCtorEq, if_false]
          push_cast
          simp only at hle'
          omega
    | release =>
      obtain ⟨t', rs, hrun, hm, ha, hle'⟩ :=
        ih { t with activeTunnels := addInt64 t.activeTunnels (-1) } hpos hmax (d - 1)
          (by
            simp only [hd, addInt64]
            exact wrapInt64_add_wrap d (-1)) (by simp only; omega)
      refine ⟨t', Ret.unit :: rs, ?_, hm, ?_, ?_⟩
      · rw [calls_cons]
        simp [call, Release_enabled t hpos, hrun]
      · rw [ha, admitted_cons, released_cons]
        congr 1
        simp only [if_true, reduceCtorEq, if_false]
        push_cast
        omega
      · rw [admitted_cons, released_cons]
        simp only [if_true, reduceCtorEq, if_false]
        push_cast
        simp only at hle'
        omega
    | activeCount =>
      obtain ⟨t', rs, hrun, hm, ha, hle'⟩ := ih t hpos hmax d hd hle
      refine ⟨t', Ret.int (ActiveCount (some t)) :: rs, ?_, hm, ?_, ?_⟩
      · rw [calls_cons]
        simp [call, hrun]
      · rw [ha, admitted_cons, released_cons]
        simp
      · rw [admitted_cons, released_cons]
        simpa using hle'
    | maxTunnels =>
      obtain ⟨t', rs, hrun, hm, ha, hle'⟩ := ih t hpos hmax d hd hle
      refine ⟨t', Ret.int (MaxTunnels (some t)) :: rs, ?_, hm, ?_, ?_⟩
      · rw [calls_cons]
        simp [call, hrun]
      · rw [ha, admitted_cons, released_cons]
        simp
      · rw [admitted_cons, released_cons]
        simpa using hle'

/-! ## Concurrent callers -/

theorem count_set_of_getElem? {l : List Pc} {i : Nat} {x : Pc} (y a : Pc)
    (h : l[i]? = some x) :
    (l.set i y).count a + (if x = a then 1 else 0) = l.count a + (if y = a then 1 else 0) := by
  induction l generalizing i with
  | nil => simp at h
  | cons z zs ih =>
    cases i with
    | zero =>
      simp only [List.getElem?_cons_zero, Option.some.injEq] at h
      subst h
      simp only [List.set_cons_zero, List.count_cons, beq_iff_eq]
      omega
    | succ j =>
      simp only [List.getElem?_cons_succ] at h
      have := ih h
      simp only [List.set_cons_succ, List.count_cons, beq_iff_eq]
      omega

theorem sum_map_set_of_getElem? {l : List Pc} {i : Nat} {x : Pc} (y : Pc) (f : Pc → Nat)
    (h : l[i]? = some x) :
    ((l.set i y).map f).sum + f x = (l.map f).sum + f y := by
  induction l generalizing i with
  | nil => simp at h
  | cons z zs ih =>
    cases i with
    | zero =>
      simp only [List.getElem?_cons_zero, Option.some.injEq] at h
      subst h
      simp only [List.set_cons_zero, List.map_cons, List.sum_cons]
      omega
    | succ j =>
      simp only [List.getElem?_cons_succ] at h
      have := ih h
      simp only [List.set_cons_succ, List.map_cons, List.sum_cons]
      omega

theorem sum_map_le_add (l : List Pc) (f g : Pc → Nat) (k : Nat) (h : ∀ x, f x ≤ g x + k) :
    (l.map f).sum ≤ (l.map g).sum + k * l.length := by
  induction l with
  | nil => simp
  | cons z zs ih =>
    have := h z
    simp only [List.map_cons, List.sum_cons, List.length_cons, Nat.mul_succ]
    omega

theorem set_of_getElem? {l : List Pc} {i : Nat} {x : Pc} (h : l[i]? = some x) :
    l.set i x = l := by
  induction l generalizing i with
  | nil => rfl
  | cons z zs ih =>
    cases i with
    | zero =>
      simp only [List.getElem?_cons_zero, Option.some.injEq] at h
      subst h
      rfl
    | succ j =>
      simp only [List.getElem?_cons_succ] at h
      simp only [List.set_cons_succ, ih h]

theorem Pool.step_of_none {p : Pool} {i : Nat} (h : p.pcs[i]? = none) : p.step i = p := by
  simp [Pool.step, h]

theorem Pool.step_of_some {p : Pool} {i : Nat} {pc : Pc} (h : p.pcs[i]? = some pc) :
    p.step i = { tl := (stepPc p.tl pc).1, pcs := p.pcs.set i (stepPc p.tl pc).2 } := by
  simp [Pool.step, h]

theorem Pool.run_cons (p : Pool) (i : Nat) (sched : List Nat) :
    p.run (i :: sched) = (p.step i).run sched := rfl

theorem Pool.step_length (p : Pool) (i : Nat) : (p.step i).pcs.length = p.pcs.length := by
  unfold Pool.step
  split <;> simp

theorem Pool.run_length (p : Pool) (sched : List Nat) :
    (p.run sched).pcs.length = p.pcs.length := by
  induction sched generalizing p with
  | nil => rfl
  | cons i rest ih => rw [Pool.run_cons, ih, Pool.step_length]

/-- Every step of every caller keeps the invariant. -/
theorem Pool.Inv_step {N : Int} (hN : 0 < N) (hmax : isInt64 N) {p : Pool} (h : p.Inv N)
    (i : Nat) : (p.step i).Inv N := by
  obtain ⟨hm, ha, hle, hcas, hden⟩ := h
  cases hi : p.pcs[i]? with
  | none =>
    rw [Pool.step_of_none hi]
    exact ⟨hm, ha, hle, hcas, hden⟩
  | some pc =>
    rw [Pool.step_of_some hi]
    have hmem : pc ∈ p.pcs := List.getElem?_mem hi
    have hcnt := fun y => count_set_of_getElem? y (Pc.done true) hi
    have hsub : ∀ (y q : Pc), q ∈ p.pcs.set i y → q ∈ p.pcs ∨ q = y :=
      fun y q hq => List.mem_or_eq_of_mem_set hq
    simp only [Pool.returned] at ha
    cases pc with
    | entry =>
      have h0 : ¬ p.tl.maxTunnels ≤ 0 := by omega
      simp only [stepPc, h0, if_false]
      refine ⟨hm, ?_, hle, ?_, ?_⟩
      · have := hcnt Pc.load
        simp only [reduceCtorEq, if_false, Nat.add_zero] at this
        simp only [Pool.returned, this]
        exact ha
      · intro c hc
        rcases hsub _ _ hc with h1 | h1
        · exact hcas c h1
        · cases h1
      · intro hd
        rcases hsub _ _ hd with h1 | h1
        · exact hden h1
        · cases h1
    | load =>
      simp only [stepPc, LoadInt64]
      by_cases hfull : p.tl.activeTunnels ≥ p.tl.maxTunnels
      · simp only [hfull, if_true]
        have hact := reportLimited_activeTunnels p.tl
        refine ⟨by rw [reportLimited_maxTunnels]; exact hm, ?_,
          by show (reportLimited p.tl).activeTunnels ≤ N; omega, ?_, ?_⟩
        · have := hcnt (Pc.done false)
          simp only [reduceCtorEq, if_false, Nat.add_zero, Pc.done.injEq, Bool.false_eq_true] at this
          simp only [Pool.returned, this, hact]
          exact ha
        · intro c hc
          rcases hsub _ _ hc with h1 | h1
          · exact hcas c h1
          · cases h1
        · intro _
          simp only [hact]
          omega
      · simp only [hfull, if_false]
        refine ⟨hm, ?_, hle, ?_, ?_⟩
        · have := hcnt (Pc.cas p.tl.activeTunnels)
          simp only [reduceCtorEq, if_false, Nat.add_zero] at this
          simp only [Pool.returned, this]
          exact ha
        · intro c hc
          rcases hsub _ _ hc with h1 | h1
          · exact hcas c h1
          · cases h1
            omega
        · intro hd
          rcases hsub _ _ hd with h1 | h1
          · exact hden h1
          · cases h1
    | cas c =>
      have hc := hcas c hmem
      simp only [stepPc, CompareAndSwapInt64]
      by_cases heq : p.tl.activeTunnels = c
      · simp only [heq, if_true]
        have hc0 : 0 ≤ c := by omega
        have hadd : addInt64 c 1 = c + 1 := by
          have hb := hmax
          unfold isInt64 minInt64 maxInt64 at hb
          unfold addInt64 wrapInt64
          omega
        rw [hadd]
        refine ⟨hm, ?_, by simp only; omega, ?_, ?_⟩
        · have := hcnt (Pc.done true)
          simp only [reduceCtorEq, if_false, Nat.add_zero, if_true] at this
          simp only [Pool.returned, this]
          push_cast
          omega
        · intro c' hc'
          rcases hsub _ _ hc' with h1 | h1
          · exact hcas c' h1
          · cases h1
        · intro hd
          rcases hsub _ _ hd with h1 | h1
          · have := hden h1
            omega
          · cases h1
      · simp only [heq, if_false, Bool.false_eq_true]
        refine ⟨hm, ?_, hle, ?_, ?_⟩
        · have := hcnt Pc.load
          simp only [reduceCtorEq, if_false, Nat.add_zero] at this
          simp only [Pool.returned, this]
          exact ha
        · intro c' hc'
          rcases hsub _ _ hc' with h1 | h1
          · exact hcas c' h1
          · cases h1
        · intro hd
          rcases hsub _ _ hd with h1 | h1
          · exact hden h1
          · cases h1
    | done b =>
      simp only [stepPc, set_of_getElem? hi]
      exact ⟨hm, ha, hle, hcas, hden⟩

theorem Pool.Inv_run {N : Int} (hN : 0 < N) (hmax : isInt64 N) {p : Pool} (h : p.Inv N)
    (sched : List Nat) : (p.run sched).Inv N := by
  induction sched generalizing p with
  | nil => exact h
  | cons i rest ih =>
    rw [Pool.run_cons]
    exact ih (Pool.Inv_step hN hmax h i)

theorem Pool.Inv_start (N : Int) (hN : 0 < N) (cfg : Option Config) (G : Nat) :
    (Pool.start (NewTunnelLimiter N cfg) G).Inv N := by
  refine ⟨rfl, ?_, ?_, ?_, ?_⟩
  · simp [Pool.start, Pool.returned, NewTunnelLimiter, List.count_replicate]
  · simp only [Pool.start, NewTunnelLimiter]
    omega
  · intro c hc
    simp only [Pool.start, List.mem_replicate] at hc
    cases hc.2
  · intro hd
    simp only [Pool.start, List.mem_replicate] at hd
    cases hd.2

/-- Once every caller has returned, the callers split into admitted and denied. -/
theorem Pool.returned_add_of_allDone {p : Pool} (h : p.allDone) :
    p.returned true + p.returned false = p.pcs.length := by
  unfold Pool.allDone at h
  unfold Pool.returned
  generalize p.pcs = l at h
  induction l with
  | nil => rfl
  | cons z zs ih =>
    have hz := h z (List.mem_cons_self _ _)
    have := ih (fun pc hpc => h pc (List.mem_cons_of_mem _ hpc))
    obtain ⟨b, hb⟩ := hz
    subst hb
    cases b <;> simp [List.count_cons] <;> omega

/-- With more callers than slots, when all have returned exactly `N` were admitted. -/
theorem Pool.counts_of_allDone {N : Nat} {p : Pool} (hinv : p.Inv N) (hG : N < p.pcs.length)
    (h : p.allDone) :
    p.returned true = N ∧ p.returned false = p.pcs.length - N ∧ p.tl.activeTunnels = N := by
  obtain ⟨_, ha, hle, _, hden⟩ := hinv
  have hsum := Pool.returned_add_of_allDone h
  have hfalse : 0 < p.returned false := by
    rw [ha] at hle
    have : p.returned true ≤ N := by exact_mod_cast hle
    omega
  have hmem : Pc.done false ∈ p.pcs := by
    unfold Pool.returned at hfalse
    exact List.count_pos_iff.mp hfalse
  have hact := hden hmem
  rw [ha] at hact
  have : p.returned true = N := by exact_mod_cast hact
  refine ⟨this, by omega, ?_⟩
  rw [ha, this]

theorem Pc.weight_succ_le (a : Int) (x : Pc) : Pc.weight (a + 1) x ≤ Pc.weight a x + 3 := by
  cases x with
  | entry => simp [Pc.weight]
  | load => simp [Pc.weight]
  | cas c =>
    simp only [Pc.weight]
    split <;> split <;> omega
  | done b => simp [Pc.weight]

/-- Every step that a caller really takes decreases the potential: no schedule
keeps the callers spinning. -/
theorem Pool.potential_step {N : Int} (hN : 0 < N) (hmax : isInt64 N) {p : Pool}
    (h : p.Inv N) {i : Nat} (hen : p.enabled i = true) :
    (p.step i).potential < p.potential := by
  obtain ⟨hm, ha, hle, hcas, hden⟩ := h
  cases hi : p.pcs[i]? with
  | none => simp [Pool.enabled, hi] at hen
  | some pc =>
    rw [Pool.step_of_some hi]
    have hmem : pc ∈ p.pcs := List.getElem?_mem hi
    have hsum := fun y f => sum_map_set_of_getElem? y f hi
    cases pc with
    | entry =>
      have h0 : ¬ p.tl.maxTunnels ≤ 0 := by omega
      have := hsum Pc.load (Pc.weight p.tl.activeTunnels)
      simp only [Pc.weight] at this
      simp only [stepPc, h0, if_false, Pool.potential, List.length_set]
      omega
    | load =>
      simp only [stepPc, LoadInt64]
      by_cases hfull : p.tl.activeTunnels ≥ p.tl.maxTunnels
      · have := hsum (Pc.done false) (Pc.weight p.tl.activeTunnels)
        simp only [Pc.weight] at this
        simp only [hfull, if_true, Pool.potential, List.length_set,
          reportLimited_activeTunnels, reportLimited_maxTunnels]
        omega
      · have := hsum (Pc.cas p.tl.activeTunnels) (Pc.weight p.tl.activeTunnels)
        simp only [Pc.weight, if_true] at this
        simp only [hfull, if_false, Pool.potential, List.length_set]
        omega
    | cas c =>
      have hc := hcas c hmem
      simp only [stepPc, CompareAndSwapInt64]
      by_cases heq : p.tl.activeTunnels = c
      · have hc0 : 0 ≤ c := by
          simp only [Pool.returned] at ha
          omega
        have hadd : addInt64 c 1 = c + 1 := by
          have hb := hmax
          unfold isInt64 minInt64 maxInt64 at hb
          unfold addInt64 wrapInt64
          omega
        have h1 := hsum (Pc.done true) (Pc.weight (c + 1))
        have hne : ¬ c = c + 1 := by omega
        simp only [Pc.weight, hne, if_false] at h1
        have h2 := sum_map_le_add p.pcs (Pc.weight (c + 1)) (Pc.weight c) 3
          (Pc.weight_succ_le c)
        simp only [heq, if_true, hadd, Pool.potential, List.length_set]
        have hx : (p.tl.maxTunnels - c).toNat = (p.tl.maxTunnels - (c + 1)).toNat + 1 := by
          omega
        rw [hx, Nat.mul_succ]
        rw [heq] at *
        omega
      · have := hsum Pc.load (Pc.weight p.tl.activeTunnels)
        have hne : ¬ c = p.tl.activeTunnels := fun e => heq e.symm
        simp only [Pc.weight, hne, if_false] at this
        simp only [heq, if_false, Bool.false_eq_true, Pool.potential, List.length_set]
        omega
    | done b => simp [Pool.enabled, hi] at hen

/-- The potential bounds the length of every interleaving in which each scheduled
caller takes a step. -/
theorem Pool.scheduled_length_le {N : Int} (hN : 0 < N) (hmax : isInt64 N) {p : Pool}
    (h : p.Inv N) (sched : List Nat) (hs : p.scheduled sched) :
    (p.run sched).potential + sched.length ≤ p.potential := by
  induction sched generalizing p with
  | nil => simp [Pool.run]
  | cons i rest ih =>
    obtain ⟨hen, hrest⟩ := hs
    have h1 := Pool.potential_step hN hmax h hen
    have h2 := ih (Pool.Inv_step hN hmax h i) hrest
    rw [Pool.run_cons]
    simp only [List.length_cons]
    omega

theorem Pool.potential_start (N : Nat) (cfg : Option Config) (G : Nat) :
    (Pool.start (NewTunnelLimiter N cfg) G).potential = 3 * G * N + 4 * G := by
  simp [Pool.potential, Pool.start, NewTunnelLimiter, Pc.weight, Nat.mul_comm]

/-- When no caller can take a step, every caller has returned. -/
theorem Pool.allDone_of_none_enabled {p : Pool} (h : ∀ i, p.enabled i = false) : p.allDone := by
  intro pc hpc
  obtain ⟨i, hi⟩ := List.mem_iff_getElem?.mp hpc
  have := h i
  cases pc with
  | done b => exact ⟨b, rfl⟩
  | entry => simp [Pool.enabled, hi] at this
  | load => simp [Pool.enabled, hi] at this
  | cas c => simp [Pool.enabled, hi] at this

/-- From every reachable pool some interleaving lets every caller return. -/
theorem Pool.exists_complete {N : Int} (hN : 0 < N) (hmax : isInt64 N) (n : Nat) :
    ∀ p : Pool, p.potential ≤ n → p.Inv N →
      ∃ sched, p.scheduled sched ∧ (p.run sched).allDone := by
  induction n with
  | zero =>
    intro p hp hinv
    refine ⟨[], trivial, Pool.allDone_of_none_enabled ?_⟩
    intro i
    by_contra hne
    have hen : p.enabled i = true := by simpa using hne
    have := Pool.potential_step hN hmax hinv hen
    omega
  | succ n ih =>
    intro p hp hinv
    by_cases hall : ∀ i, p.enabled i = false
    · exact ⟨[], trivial, Pool.allDone_of_none_enabled hall⟩
    · push_neg at hall
      obtain ⟨i, hi⟩ := hall
      have hen : p.enabled i = true := by simpa using hi
      have hlt := Pool.potential_step hN hmax hinv hen
      obtain ⟨sched, hs, hd⟩ := ih (p.step i) (by omega) (Pool.Inv_step hN hmax hinv i)
      exact ⟨i :: sched, ⟨hen, hs⟩, by rw [Pool.run_cons]; exact hd⟩

/-- A caller alone in the pool does what the sequential `Acquire` does, in three
atomic steps at most. -/
theorem Pool.single_caller (tl : TunnelLimiter) :
    ∃ b, ((Pool.start tl 1).run [0, 0, 0]).pcs = [Pc.done b] ∧
      Acquire 1 (some tl) = some (some ((Pool.start tl 1).run [0, 0, 0]).tl, b) := by
  by_cases h0 : tl.maxTunnels ≤ 0
  · refine ⟨true, ?_, ?_⟩ <;>
      simp [Pool.start, Pool.run, Pool.step, stepPc, Acquire, h0]
  · by_cases hfull : tl.activeTunnels ≥ tl.maxTunnels
    · refine ⟨false, ?_, ?_⟩ <;>
        simp [Pool.start, Pool.run, Pool.step, stepPc, Acquire, acquireLoop, LoadInt64, h0, hfull]
    · refine ⟨true, ?_, ?_⟩ <;>
        simp [Pool.start, Pool.run, Pool.step, stepPc, Acquire, acquireLoop, LoadInt64,
          CompareAndSwapInt64, h0, hfull]

/-! ## A single call of `Acquire` -/

/-- C1: on an enabled gate (non-nil, capacity > 0), in any state, an `Acquire` that
no other caller interferes with returns, and it returns `false` exactly when the
live count read at the call is at least the capacity, `true` otherwise. -/
theorem acquire_denies_iff_at_capacity (fuel : Nat) (tl : TunnelLimiter)
    (h : 0 < MaxTunnels (some tl)) :
    ∃ tl' b, Acquire (fuel + 1) (some tl) = some (some tl', b) ∧
      (b = false ↔ ActiveCount (some tl) ≥ MaxTunnels (some tl)) ∧
      (b = true ↔ ActiveCount (some tl) < MaxTunnels (some tl)) := by
  simp only [MaxTunnels, ActiveCount, LoadInt64] at h ⊢
  rw [Acquire_enabled fuel tl h]
  by_cases hc : tl.activeTunnels ≥ tl.maxTunnels
  · refine ⟨reportLimited tl, false, by simp [hc], ?_, ?_⟩
    · simp [hc]
    · simp only [Bool.false_eq_true, false_iff]
      omega
  · refine ⟨{ tl with activeTunnels := addInt64 tl.activeTunnels 1 }, true, by simp [hc], ?_, ?_⟩
    · simp only [Bool.true_eq_false, false_iff]
      exact hc
    · simp only [true_iff]
      omega

theorem acquire_denies_iff_at_capacity_witness :
    0 < MaxTunnels (some (NewTunnelLimiter 3 none)) ∧
    ∃ tl' b, Acquire (0 + 1) (some (NewTunnelLimiter 3 none)) = some (some tl', b) ∧
      (b = false ↔
        ActiveCount (some (NewTunnelLimiter 3 none)) ≥ MaxTunnels (some (NewTunnelLimiter 3 none))) ∧
      (b = true ↔
        ActiveCount (some (NewTunnelLimiter 3 none)) < MaxTunnels (some (NewTunnelLimiter 3 none))) :=
  ⟨by decide, acquire_denies_iff_at_capacity 0 (NewTunnelLimiter 3 none) (by decide)⟩

/-- C2: on an enabled gate (capacity > 0) and for every `int64` live count, an
`Acquire` that returns `true` leaves the live count exactly one higher than before
the call, an `Acquire` that returns `false` leaves it unchanged, and the capacity is
unchanged in both cases. -/
theorem acquire_effect_on_count (fuel : Nat) (tl : TunnelLimiter) (hwf : tl.WF)
    (h : 0 < MaxTunnels (some tl)) :
    ∃ tl' b, Acquire (fuel + 1) (some tl) = some (some tl', b) ∧
      (b = true → ActiveCount (some tl') = ActiveCount (some tl) + 1) ∧
      (b = false → ActiveCount (some tl') = ActiveCount (some tl)) ∧
      MaxTunnels (some tl') = MaxTunnels (some tl) := by
  simp only [MaxTunnels, ActiveCount, LoadInt64] at h ⊢
  rw [Acquire_enabled fuel tl h]
  by_cases hc : tl.activeTunnels ≥ tl.maxTunnels
  · refine ⟨reportLimited tl, false, by simp [hc], by simp, ?_, ?_⟩
    · intro _
      exact reportLimited_activeTunnels tl
    · exact reportLimited_maxTunnels tl
  · refine ⟨{ tl with activeTunnels := addInt64 tl.activeTunnels 1 }, true, by simp [hc],
      ?_, by simp, rfl⟩
    intro _
    exact addInt64_one_of_lt hwf.2 hwf.1 (by omega)

theorem acquire_effect_on_count_witness :
    (TunnelLimiter.mk 3 2 none).WF ∧ 0 < MaxTunnels (some (TunnelLimiter.mk 3 2 none)) ∧
    ∃ tl' b, Acquire (0 + 1) (some (TunnelLimiter.mk 3 2 none)) = some (some tl', b) ∧
      (b = true → ActiveCount (some tl') = ActiveCount (some (TunnelLimiter.mk 3 2 none)) + 1) ∧
      (b = false → ActiveCount (some tl') = ActiveCount (some (TunnelLimiter.mk 3 2 none))) ∧
      MaxTunnels (some tl') = MaxTunnels (some (TunnelLimiter.mk 3 2 none)) :=
  ⟨by decide, by decide,
    acquire_effect_on_count 0 (TunnelLimiter.mk 3 2 none) (by decide) (by decide)⟩

/-! ## Runs of calls on a fresh gate -/

/-- C3: for every N > 0, on a freshly constructed gate `NewTunnelLimiter(N, cfg)` with
no `Release` in between, the k-th `Acquire` returns `true` and `ActiveCount` is k
afterwards for every 1 ≤ k ≤ N; the (N+1)-th `Acquire` returns `false` and
`ActiveCount` remains N. -/
theorem fresh_gate_admits_exactly_capacity (fuel : Nat) (N : Nat) (cfg : Option Config)
    (hN : 0 < N) (hmax : isInt64 (N : Int)) :
    (∀ k : Nat, 1 ≤ k → k ≤ N →
      ∃ tl, calls (fuel + 1) (some (NewTunnelLimiter N cfg)) (List.replicate k Call.acquire) =
          some (tl, List.replicate k (Ret.bool true)) ∧
        ActiveCount tl = k) ∧
    (∃ tl, calls (fuel + 1) (some (NewTunnelLimiter N cfg)) (List.replicate (N + 1) Call.acquire) =
        some (tl, List.replicate N (Ret.bool true) ++ [Ret.bool false]) ∧
      ActiveCount tl = N) := by
  have hwf : (NewTunnelLimiter N cfg).WF := ⟨hmax, (by decide : isInt64 0)⟩
  have hpos : 0 < (NewTunnelLimiter (N : Int) cfg).maxTunnels := by
    simp only [NewTunnelLimiter]
    omega
  constructor
  · intro k _ hk
    refine ⟨_, calls_acquire_below fuel k _ hwf hpos ?_, ?_⟩
    · simp only [NewTunnelLimiter]
      omega
    · simp [ActiveCount, LoadInt64, NewTunnelLimiter]
  · have hrun := calls_acquire_below fuel N _ hwf hpos
      (by simp only [NewTunnelLimiter]; omega)
    obtain ⟨tl', hlast, h1, _⟩ := calls_acquire_full fuel 1
      { NewTunnelLimiter (N : Int) cfg with
        activeTunnels := (NewTunnelLimiter (N : Int) cfg).activeTunnels + N }
      hpos (by simp only [NewTunnelLimiter]; omega)
    refine ⟨some tl', ?_, ?_⟩
    · rw [List.replicate_succ', calls_append, hrun]
      simp only [Option.some_bind]
      rw [← List.replicate_one, hlast]
      simp
    · simp only [ActiveCount, LoadInt64, h1, NewTunnelLimiter]
      omega

theorem fresh_gate_admits_exactly_capacity_witness :
    0 < 3 ∧ isInt64 ((3 : Nat) : Int) ∧
    (∀ k : Nat, 1 ≤ k → k ≤ 3 →
      ∃ tl, calls (0 + 1) (some (NewTunnelLimiter (3 : Nat) none)) (List.replicate k Call.acquire) =
          some (tl, List.replicate k (Ret.bool true)) ∧
        ActiveCount tl = k) ∧
    (∃ tl, calls (0 + 1) (some (NewTunnelLimiter (3 : Nat) none))
        (List.replicate (3 + 1) Call.acquire) =
        some (tl, List.replicate 3 (Ret.bool true) ++ [Ret.bool false]) ∧
      ActiveCount tl = (3 : Nat)) :=
  ⟨by decide, by decide, fresh_gate_admits_exactly_capacity 0 3 none (by decide) (by decide)⟩

/-- C4: on an enabled gate, every sequence of calls on a freshly constructed gate
runs to its end, and when each `Release` of the sequence is matched to a distinct
earlier successful `Acquire` (caller discipline), the state reached satisfies
0 ≤ `ActiveCount` ≤ capacity and `ActiveCount` is the number of slots acquired
and not released. -/
theorem disciplined_count_within_capacity (fuel : Nat) (N : Nat) (cfg : Option Config)
    (hN : 0 < N) (hmax : isInt64 (N : Int)) (cs : List Call) :
    ∃ tl rs, calls (fuel + 1) (some (NewTunnelLimiter N cfg)) cs = some (tl, rs) ∧
      ∀ held, outstanding cs rs 0 = some held →
        0 ≤ ActiveCount tl ∧ ActiveCount tl ≤ MaxTunnels tl ∧ MaxTunnels tl = N ∧
        ActiveCount tl = held := by
  obtain ⟨tl, rs, hrun⟩ := calls_total fuel cs (some (NewTunnelLimiter N cfg))
  refine ⟨tl, rs, hrun, ?_⟩
  intro held hout
  obtain ⟨h1, h2, h3⟩ := calls_disciplined fuel N hN hmax cs (NewTunnelLimiter N cfg) 0
    rfl rfl (by omega) tl rs hrun held hout
  rw [h1, h2]
  exact ⟨by omega, by omega, rfl, rfl⟩

theorem disciplined_count_within_capacity_witness :
    0 < 2 ∧ isInt64 ((2 : Nat) : Int) ∧
    outstanding [Call.acquire, Call.acquire, Call.acquire, Call.release, Call.activeCount]
      [Ret.bool true, Ret.bool true, Ret.bool false, Ret.unit, Ret.int 1] 0 = some 1 ∧
    calls (0 + 1) (some (NewTunnelLimiter (2 : Nat) none))
      [Call.acquire, Call.acquire, Call.acquire, Call.release, Call.activeCount] =
      some (some (TunnelLimiter.mk 2 1 none),
        [Ret.bool true, Ret.bool true, Ret.bool false, Ret.unit, Ret.int 1]) ∧
    ∃ tl rs, calls (0 + 1) (some (NewTunnelLimiter (2 : Nat) none))
        [Call.acquire, Call.acquire, Call.acquire, Call.release, Call.activeCount] =
        some (tl, rs) ∧
      ∀ held,
        outstanding [Call.acquire, Call.acquire, Call.acquire, Call.release, Call.activeCount]
          rs 0 = some held →
        0 ≤ ActiveCount tl ∧ ActiveCount tl ≤ MaxTunnels tl ∧ MaxTunnels tl = (2 : Nat) ∧
        ActiveCount tl = held :=
  ⟨by decide, by decide, by decide, by decide,
    disciplined_count_within_capacity 0 2 none (by decide) (by decide)
      [Call.acquire, Call.acquire, Call.acquire, Call.release, Call.activeCount]⟩

/-! ## Concurrent admission -/

/-- C5: for every capacity N > 0 and every G > N, when G concurrent callers each call
`Acquire` once on a fresh gate, whatever the interleaving of their atomic loads
and compare-and-swaps (no `Release`): once all have returned, exactly N calls
returned `true`, exactly G - N returned `false`, and `ActiveCount` is N. All do
return: an interleaving in which every scheduled caller takes a step has at most
3·G·N + 4·G steps, when no caller can take a step every caller has returned,
and such an interleaving exists. -/
theorem concurrent_admission_exact (N G : Nat) (cfg : Option Config) (hN : 0 < N)
    (hmax : isInt64 (N : Int)) (hG : N < G) :
    (∀ sched, ((Pool.start (NewTunnelLimiter N cfg) G).run sched).allDone →
      ((Pool.start (NewTunnelLimiter N cfg) G).run sched).returned true = N ∧
      ((Pool.start (NewTunnelLimiter N cfg) G).run sched).returned false = G - N ∧
      ActiveCount (some ((Pool.start (NewTunnelLimiter N cfg) G).run sched).tl) = N) ∧
    (∀ sched, (Pool.start (NewTunnelLimiter N cfg) G).scheduled sched →
      sched.length ≤ 3 * G * N + 4 * G ∧
      ((∀ i, ((Pool.start (NewTunnelLimiter N cfg) G).run sched).enabled i = false) →
        ((Pool.start (NewTunnelLimiter N cfg) G).run sched).allDone)) ∧
    (∃ sched, (Pool.start (NewTunnelLimiter N cfg) G).scheduled sched ∧
      ((Pool.start (NewTunnelLimiter N cfg) G).run sched).allDone) := by
  have hpos : (0 : Int) < N := by omega
  have hinv := Pool.Inv_start N hpos cfg G
  refine ⟨?_, ?_, ?_⟩
  · intro sched hdone
    have hlen := Pool.run_length (Pool.start (NewTunnelLimiter N cfg) G) sched
    have hG' : N < ((Pool.start (NewTunnelLimiter N cfg) G).run sched).pcs.length := by
      rw [hlen]
      simpa [Pool.start] using hG
    obtain ⟨h1, h2, h3⟩ := Pool.counts_of_allDone (Pool.Inv_run hpos hmax hinv sched) hG' hdone
    refine ⟨h1, ?_, h3⟩
    rw [h2, hlen]
    simp [Pool.start]
  · intro sched hs
    have hb := Pool.scheduled_length_le hpos hmax hinv sched hs
    rw [Pool.potential_start] at hb
    exact ⟨by omega, Pool.allDone_of_none_enabled⟩
  · exact Pool.exists_complete hpos hmax _ _ (Nat.le_refl _) hinv

theorem concurrent_admission_exact_witness :
    0 < 10 ∧ isInt64 ((10 : Nat) : Int) ∧ 10 < 100 ∧
    ((Pool.start (NewTunnelLimiter (10 : Nat) none) 100).run (sequentialSchedule 100)).allDone ∧
    ((Pool.start (NewTunnelLimiter (10 : Nat) none) 100).run (sequentialSchedule 100)).returned true
      = 10 ∧
    ((Pool.start (NewTunnelLimiter (10 : Nat) none) 100).run (sequentialSchedule 100)).returned false
      = 100 - 10 ∧
    ActiveCount (some
      ((Pool.start (NewTunnelLimiter (10 : Nat) none) 100).run (sequentialSchedule 100)).tl) =
      (10 : Nat) :=
  have hdone : ((Pool.start (NewTunnelLimiter (10 : Nat) none) 100).run
      (sequentialSchedule 100)).allDone := by decide!
  ⟨by decide, by decide, by decide, hdone,
    (concurrent_admission_exact 10 100 none (by decide) (by decide) (by decide)).1
      (sequentialSchedule 100) hdone⟩

/-! ## Disabled gates -/

/-- C6: on a gate constructed with capacity ≤ 0 (zero or negative), every finite
sequence of calls runs to its end with every `Acquire` returning `true` and
`ActiveCount` reporting 0 wherever it is called; the gate is left exactly as
constructed, so nothing is ever mutated. -/
theorem disabled_gate_admits_and_never_counts (fuel : Nat) (m : Int) (cfg : Option Config)
    (hm : m ≤ 0) (cs : List Call) :
    calls fuel (some (NewTunnelLimiter m cfg)) cs =
      some (some (NewTunnelLimiter m cfg), cs.map (fun c =>
        match c with
        | Call.acquire => Ret.bool true
        | Call.release => Ret.unit
        | Call.activeCount => Ret.int 0
        | Call.maxTunnels => Ret.int m)) ∧
    ActiveCount (some (NewTunnelLimiter m cfg)) = 0 :=
  ⟨calls_disabled fuel (some (NewTunnelLimiter m cfg)) hm cs, rfl⟩

theorem disabled_gate_admits_and_never_counts_witness :
    (-5 : Int) ≤ 0 ∧
    calls 0 (some (NewTunnelLimiter (-5) none))
      [Call.acquire, Call.activeCount, Call.release, Call.release, Call.activeCount,
        Call.acquire] =
      some (some (NewTunnelLimiter (-5) none),
        [Call.acquire, Call.activeCount, Call.release, Call.release, Call.activeCount,
          Call.acquire].map (fun c =>
          match c with
          | Call.acquire => Ret.bool true
          | Call.release => Ret.unit
          | Call.activeCount => Ret.int 0
          | Call.maxTunnels => Ret.int (-5))) ∧
    ActiveCount (some (NewTunnelLimiter (-5) none)) = 0 :=
  ⟨by decide,
    disabled_gate_admits_and_never_counts 0 (-5) none (by decide)
      [Call.acquire, Call.activeCount, Call.release, Call.release, Call.activeCount,
        Call.acquire]⟩

/-- C7, as stated, fails: a gate constructed with the negative capacity -1 is disabled,
yet `MaxTunnels` reports -1, not 0. -/
theorem maxTunnels_negative_capacity_counterexample :
    (-1 : Int) ≤ 0 ∧ MaxTunnels (some (NewTunnelLimiter (-1) none)) = -1 ∧
    MaxTunnels (some (NewTunnelLimiter (-1) none)) ≠ 0 := by
  decide

/-- C7, amended: for every disabled gate `ActiveCount` reports 0; `MaxTunnels` reports 0
for a nil reference, and for a gate constructed with capacity m ≤ 0 it reports m
itself, after any sequence of calls, which is 0 exactly when m is 0. -/
theorem disabled_gate_accessors (fuel : Nat) (m : Int) (cfg : Option Config) (hm : m ≤ 0)
    (cs : List Call) :
    MaxTunnels none = 0 ∧ ActiveCount none = 0 ∧
    ∃ tl rs, calls fuel (some (NewTunnelLimiter m cfg)) cs = some (tl, rs) ∧
      ActiveCount tl = 0 ∧ MaxTunnels tl = m ∧ (MaxTunnels tl = 0 ↔ m = 0) := by
  have hrun := calls_disabled fuel (some (NewTunnelLimiter m cfg)) hm cs
  exact ⟨rfl, rfl, _, _, hrun, rfl, rfl, Iff.rfl⟩

theorem disabled_gate_accessors_witness :
    (-3 : Int) ≤ 0 ∧
    (MaxTunnels none = 0 ∧ ActiveCount none = 0 ∧
    ∃ tl rs, calls 0 (some (NewTunnelLimiter (-3) none)) [Call.acquire, Call.release] =
        some (tl, rs) ∧
      ActiveCount tl = 0 ∧ MaxTunnels tl = -3 ∧ (MaxTunnels tl = 0 ↔ (-3 : Int) = 0)) :=
  ⟨by decide, disabled_gate_accessors 0 (-3) none (by decide) [Call.acquire, Call.release]⟩

/-- C8: every operation on a nil gate reference is safe and behaves as disabled:
`Acquire` returns `true`, `Release` does nothing, `ActiveCount` and `MaxTunnels`
return 0, and so it is for every call of every sequence of calls, which leaves the
reference nil. -/
theorem nil_gate_is_disabled (fuel : Nat) (cs : List Call) :
    Acquire fuel none = some (none, true) ∧ Release none = none ∧
    ActiveCount none = 0 ∧ MaxTunnels none = 0 ∧
    calls fuel none cs = some (none, cs.map (fun c =>
      match c with
      | Call.acquire => Ret.bool true
      | Call.release => Ret.unit
      | Call.activeCount => Ret.int 0
      | Call.maxTunnels => Ret.int 0)) := by
  exact ⟨rfl, rfl, rfl, rfl, calls_disabled fuel none (Int.le_refl 0) cs⟩

/-! ## Release -/

/-- C9, as stated, fails: at the smallest `int64` live count the decrement of
`Release` wraps around to the largest `int64`; the live count is not c - 1. -/
theorem release_at_minInt64_counterexample :
    0 < MaxTunnels (some (TunnelLimiter.mk 1 (-9223372036854775808) none)) ∧
    (TunnelLimiter.mk 1 (-9223372036854775808) none).WF ∧
    ActiveCount (Release (some (TunnelLimiter.mk 1 (-9223372036854775808) none))) =
      9223372036854775807 ∧
    ActiveCount (Release (some (TunnelLimiter.mk 1 (-9223372036854775808) none))) ≠
      ActiveCount (some (TunnelLimiter.mk 1 (-9223372036854775808) none)) - 1 := by
  decide

/-- C9, amended: on an enabled gate `Release` leaves the capacity unchanged and, with
no validation or clamping, sets every `int64` live count c above the smallest
`int64` to exactly c - 1; at the smallest `int64` the decrement wraps to the
largest. In particular `Release` on a freshly constructed enabled gate yields
`ActiveCount` = -1. -/
theorem release_decrements_without_validation :
    (∀ tl : TunnelLimiter, 0 < MaxTunnels (some tl) → tl.WF →
      MaxTunnels (Release (some tl)) = MaxTunnels (some tl) ∧
      (minInt64 < ActiveCount (some tl) →
        ActiveCount (Release (some tl)) = ActiveCount (some tl) - 1) ∧
      (ActiveCount (some tl) = minInt64 → ActiveCount (Release (some tl)) = maxInt64)) ∧
    (∀ (N : Int) (cfg : Option Config), 0 < N → isInt64 N →
      ActiveCount (Release (some (NewTunnelLimiter N cfg))) = -1) := by
  constructor
  · intro tl hpos hwf
    simp only [MaxTunnels, ActiveCount, LoadInt64] at hpos ⊢
    rw [Release_enabled tl hpos]
    refine ⟨rfl, ?_, ?_⟩
    · intro h
      exact addInt64_neg_one_of_lt hwf.2 h
    · intro h
      simp only [h]
      decide
  · intro N cfg hpos _
    rw [Release_enabled _ hpos]
    simp only [ActiveCount, LoadInt64, NewTunnelLimiter]
    decide

theorem release_decrements_without_validation_witness :
    (0 < MaxTunnels (some (TunnelLimiter.mk 3 0 none)) ∧ (TunnelLimiter.mk 3 0 none).WF ∧
      minInt64 < ActiveCount (some (TunnelLimiter.mk 3 0 none)) ∧
      ActiveCount (Release (some (TunnelLimiter.mk 3 0 none))) =
        ActiveCount (some (TunnelLimiter.mk 3 0 none)) - 1) ∧
    ((0 : Int) < 3 ∧ isInt64 3 ∧
      ActiveCount (Release (some (NewTunnelLimiter 3 none))) = -1) :=
  ⟨⟨by decide, by decide, by decide,
      (release_decrements_without_validation.1 (TunnelLimiter.mk 3 0 none)
        (by decide) (by decide)).2.1 (by decide)⟩,
    ⟨by decide, by decide,
      release_decrements_without_validation.2 3 none (by decide) (by decide)⟩⟩

/-- C10: for every N > 0, starting from a full gate (capacity N, `ActiveCount` N),
after one `Release` exactly one subsequent `Acquire` succeeds: the first `Acquire`
returns `true` and brings `ActiveCount` back to N, and each of any number m of
further `Acquire` calls returns `false`, with `ActiveCount` still N. -/
theorem release_frees_exactly_one_slot (fuel : Nat) (N : Nat) (cfg : Option Config)
    (hN : 0 < N) (hmax : isInt64 (N : Int)) (m : Nat) :
    (∃ tl, calls (fuel + 1) (some (TunnelLimiter.mk N N cfg)) [Call.release, Call.acquire] =
        some (tl, [Ret.unit, Ret.bool true]) ∧
      ActiveCount tl = N) ∧
    (∃ tl, calls (fuel + 1) (some (TunnelLimiter.mk N N cfg))
        (Call.release :: Call.acquire :: List.replicate m Call.acquire) =
        some (tl, Ret.unit :: Ret.bool true :: List.replicate m (Ret.bool false)) ∧
      ActiveCount tl = N) := by
  have hb := hmax
  unfold isInt64 minInt64 maxInt64 at hb
  have hpos : 0 < (TunnelLimiter.mk N N cfg).maxTunnels := by
    simp only
    omega
  have hwf : (TunnelLimiter.mk N N cfg).WF := ⟨hmax, hmax⟩
  have hrel : Release (some (TunnelLimiter.mk N N cfg)) =
      some (TunnelLimiter.mk N ((N : Int) - 1) cfg) := by
    rw [Release_enabled _ hpos]
    simp only
    rw [addInt64_neg_one_of_lt hmax (by unfold minInt64; omega)]
  have hwf1 : (TunnelLimiter.mk N ((N : Int) - 1) cfg).WF := by
    refine ⟨hmax, ?_⟩
    unfold isInt64 minInt64 maxInt64
    simp only
    omega
  have hacq : call (fuel + 1) (some (TunnelLimiter.mk N ((N : Int) - 1) cfg)) Call.acquire =
      some (some (TunnelLimiter.mk N N cfg), Ret.bool true) := by
    rw [call_acquire_below fuel _ hwf1 (by simp only; omega) (by simp only; omega)]
    simp
  constructor
  · refine ⟨some (TunnelLimiter.mk N N cfg), ?_, rfl⟩
    rw [calls_cons]
    simp only [call, Option.some_bind, hrel]
    rw [calls_cons, hacq]
    simp [calls]
  · obtain ⟨tl', hrun, h1, _⟩ := calls_acquire_full fuel m (TunnelLimiter.mk N N cfg) hpos
      (by simp only; omega)
    refine ⟨some tl', ?_, ?_⟩
    · rw [calls_cons]
      simp only [call, Option.some_bind, hrel]
      rw [calls_cons, hacq]
      simp [hrun]
    · simp only [ActiveCount, LoadInt64, h1]

theorem release_frees_exactly_one_slot_witness :
    0 < 3 ∧ isInt64 ((3 : Nat) : Int) ∧
    ((∃ tl, calls (0 + 1) (some (TunnelLimiter.mk (3 : Nat) (3 : Nat) none))
        [Call.release, Call.acquire] = some (tl, [Ret.unit, Ret.bool true]) ∧
      ActiveCount tl = (3 : Nat)) ∧
    (∃ tl, calls (0 + 1) (some (TunnelLimiter.mk (3 : Nat) (3 : Nat) none))
        (Call.release :: Call.acquire :: List.replicate 2 Call.acquire) =
        some (tl, Ret.unit :: Ret.bool true :: List.replicate 2 (Ret.bool false)) ∧
      ActiveCount tl = (3 : Nat))) :=
  ⟨by decide, by decide, release_frees_exactly_one_slot 0 3 none (by decide) (by decide) 2⟩

/-- C11: for every N > 0, on a fresh gate of capacity N, N `Acquire` calls, all of them
successful, followed by N `Release` calls return `ActiveCount` to 0. -/
theorem release_all_returns_to_zero (fuel : Nat) (N : Nat) (cfg : Option Config)
    (hN : 0 < N) (hmax : isInt64 (N : Int)) :
    ∃ tl, calls (fuel + 1) (some (NewTunnelLimiter N cfg))
        (List.replicate N Call.acquire ++ List.replicate N Call.release) =
        some (tl, List.replicate N (Ret.bool true) ++ List.replicate N Ret.unit) ∧
      ActiveCount tl = 0 := by
  have hwf : (NewTunnelLimiter N cfg).WF := ⟨hmax, (by decide : isInt64 0)⟩
  have hpos : 0 < (NewTunnelLimiter (N : Int) cfg).maxTunnels := by
    simp only [NewTunnelLimiter]
    omega
  have hacq := calls_acquire_below fuel N _ hwf hpos (by simp only [NewTunnelLimiter]; omega)
  have hrel := calls_release_wrap (fuel + 1) N
    { NewTunnelLimiter (N : Int) cfg with
      activeTunnels := (NewTunnelLimiter (N : Int) cfg).activeTunnels + N }
    hpos (by simp only [NewTunnelLimiter, Int.zero_add]; exact hmax)
  refine ⟨some { NewTunnelLimiter (N : Int) cfg with activeTunnels := 0 }, ?_, rfl⟩
  rw [calls_append, hacq]
  simp only [Option.some_bind]
  rw [hrel]
  have e : wrapInt64 ((NewTunnelLimiter (N : Int) cfg).activeTunnels + (N : Int) - (N : Int)) = 0 := by
    simp only [NewTunnelLimiter, Int.zero_add, Int.sub_self]
    decide
  simp only [Option.some_bind, e]

theorem release_all_returns_to_zero_witness :
    0 < 3 ∧ isInt64 ((3 : Nat) : Int) ∧
    ∃ tl, calls (0 + 1) (some (NewTunnelLimiter (3 : Nat) none))
        (List.replicate 3 Call.acquire ++ List.replicate 3 Call.release) =
        some (tl, List.replicate 3 (Ret.bool true) ++ List.replicate 3 Ret.unit) ∧
      ActiveCount tl = 0 :=
  ⟨by decide, by decide, release_all_returns_to_zero 0 3 none (by decide) (by decide)⟩

/-! ## Capacity -/

/-- C12: for every constructor argument m and every finite sequence of `Acquire`,
`Release`, `ActiveCount` and `MaxTunnels` calls on `NewTunnelLimiter(m, cfg)`, the
sequence runs to its end, every `MaxTunnels` call in it returns m, and
`MaxTunnels` is m at the end: no operation modifies the capacity. -/
theorem capacity_is_constructor_argument (fuel : Nat) (m : Int) (cfg : Option Config)
    (cs : List Call) :
    ∃ tl rs, calls (fuel + 1) (some (NewTunnelLimiter m cfg)) cs = some (tl, rs) ∧
      MaxTunnels tl = m ∧ rs.length = cs.length ∧
      ∀ i : Nat, cs[i]? = some Call.maxTunnels → rs[i]? = some (Ret.int m) := by
  obtain ⟨t', rs, hrun, hm, hlen, hall⟩ := calls_maxTunnels fuel cs (NewTunnelLimiter m cfg)
  exact ⟨some t', rs, hrun, hm, hlen, hall⟩

theorem capacity_is_constructor_argument_witness :
    calls (0 + 1) (some (NewTunnelLimiter 42 none))
      [Call.maxTunnels, Call.acquire, Call.release, Call.release, Call.maxTunnels] =
      some (some (TunnelLimiter.mk 42 (-1) none),
        [Ret.int 42, Ret.bool true, Ret.unit, Ret.unit, Ret.int 42]) ∧
    ∃ tl rs, calls (0 + 1) (some (NewTunnelLimiter 42 none))
        [Call.maxTunnels, Call.acquire, Call.release, Call.release, Call.maxTunnels] =
        some (tl, rs) ∧
      MaxTunnels tl = 42 ∧
      rs.length = [Call.maxTunnels, Call.acquire, Call.release, Call.release,
        Call.maxTunnels].length ∧
      ∀ i : Nat, [Call.maxTunnels, Call.acquire, Call.release, Call.release, Call.maxTunnels][i]? =
        some Call.maxTunnels → rs[i]? = some (Ret.int 42) :=
  ⟨by decide,
    capacity_is_constructor_argument 0 42 none
      [Call.maxTunnels, Call.acquire, Call.release, Call.release, Call.maxTunnels]⟩

/-! ## The metrics sink -/

/-- C13: with a metrics sink present, a call on the gate returns, and an `Acquire`
that returns `false` appends exactly one `Incr("tunnels.concurrency_limited", 1)`
to the sink's log, while every call that returns anything else (an `Acquire` that
returns `true`, a `Release`, `ActiveCount`, `MaxTunnels`) appends nothing; only an
`Acquire` on an enabled gate is ever denied, so no call on a disabled gate appends
anything, and a nil gate has no log. -/
theorem denial_reports_exactly_once (fuel : Nat) (mx act : Int) (sink : MetricsSink)
    (c : Call) :
    (∃ tl' r, call (fuel + 1) (some (TunnelLimiter.mk mx act (some (Config.mk (some sink))))) c =
        some (tl', r) ∧
      (r = Ret.bool false →
        metricsLog tl' = sink.calls ++ [("tunnels.concurrency_limited", 1)]) ∧
      (r ≠ Ret.bool false → metricsLog tl' = sink.calls) ∧
      (r = Ret.bool false → c = Call.acquire ∧ 0 < mx ∧ act ≥ mx)) ∧
    (∃ r, call (fuel + 1) none c = some (none, r) ∧ r ≠ Ret.bool false ∧ metricsLog none = []) := by
  constructor
  · cases c with
    | acquire =>
      by_cases h0 : mx ≤ 0
      · refine ⟨some (TunnelLimiter.mk mx act (some (Config.mk (some sink)))), Ret.bool true,
          by simp [call, Acquire, h0], ?_, ?_, ?_⟩
        · intro h
          cases h
        · intro _
          rfl
        · intro h
          cases h
      · by_cases hfull : act ≥ mx
        · refine ⟨some (reportLimited (TunnelLimiter.mk mx act (some (Config.mk (some sink))))),
            Ret.bool false, ?_, ?_, ?_, ?_⟩
          · rw [call, Acquire_enabled fuel _ (by simp only; omega)]
            simp [hfull]
          · intro _
            rfl
          · intro h
            exact absurd rfl h
          · intro _
            exact ⟨rfl, by omega, hfull⟩
        · refine ⟨some (TunnelLimiter.mk mx (addInt64 act 1) (some (Config.mk (some sink)))),
            Ret.bool true, ?_, ?_, ?_, ?_⟩
          · rw [call, Acquire_enabled fuel _ (by simp only; omega)]
            simp [hfull]
          · intro h
            cases h
          · intro _
            rfl
          · intro h
            cases h
    | release =>
      refine ⟨Release (some (TunnelLimiter.mk mx act (some (Config.mk (some sink))))), Ret.unit,
        rfl, ?_, ?_, ?_⟩
      · intro h
        cases h
      · intro _
        by_cases h0 : mx ≤ 0 <;> simp [Release, h0, metricsLog]
      · intro h
        cases h
    | activeCount =>
      refine ⟨_, _, rfl, ?_, ?_, ?_⟩
      · intro h
        cases h
      · intro _
        rfl
      · intro h
        cases h
    | maxTunnels =>
      refine ⟨_, _, rfl, ?_, ?_, ?_⟩
      · intro h
        cases h
      · intro _
        rfl
      · intro h
        cases h
  · cases c with
    | acquire => exact ⟨Ret.bool true, rfl, by decide, rfl⟩
    | release => exact ⟨Ret.unit, rfl, by decide, rfl⟩
    | activeCount => exact ⟨Ret.int 0, rfl, by decide, rfl⟩
    | maxTunnels => exact ⟨Ret.int 0, rfl, by decide, rfl⟩

theorem denial_reports_exactly_once_witness :
    call (0 + 1) (some (TunnelLimiter.mk 2 2 (some (Config.mk (some (MetricsSink.mk [])))))) Call.acquire =
      some (some (TunnelLimiter.mk 2 2 (some (Config.mk (some
        (MetricsSink.mk [("tunnels.concurrency_limited", 1)]))))), Ret.bool false) ∧
    ((∃ tl' r, call (0 + 1)
        (some (TunnelLimiter.mk 2 2 (some (Config.mk (some (MetricsSink.mk [])))))) Call.acquire =
        some (tl', r) ∧
      (r = Ret.bool false →
        metricsLog tl' = (MetricsSink.mk []).calls ++ [("tunnels.concurrency_limited", 1)]) ∧
      (r ≠ Ret.bool false → metricsLog tl' = (MetricsSink.mk []).calls) ∧
      (r = Ret.bool false → Call.acquire = Call.acquire ∧ (0 : Int) < 2 ∧ (2 : Int) ≥ 2)) ∧
    (∃ r, call (0 + 1) none Call.acquire = some (none, r) ∧ r ≠ Ret.bool false ∧
      metricsLog none = [])) :=
  ⟨by decide, denial_reports_exactly_once 0 2 2 (MetricsSink.mk []) Call.acquire⟩

/-- C14: the metrics sink has no effect on admission. For every capacity and every
sequence of calls, two gates constructed with any two configs (nil, a config with
a nil `MetricsClient`, a config with a sink) run the sequence to its end with the
same returned values, so the same `Acquire` results and `ActiveCount` values, and
end with the same `ActiveCount` and `MaxTunnels`. With the sink absent the denial
path returns `false` and leaves the gate as it was. -/
theorem metrics_sink_does_not_affect_admission (fuel : Nat) (m : Int)
    (cfg1 cfg2 : Option Config) (cs : List Call) :
    (∃ tl1 tl2 rs, calls (fuel + 1) (some (NewTunnelLimiter m cfg1)) cs = some (tl1, rs) ∧
      calls (fuel + 1) (some (NewTunnelLimiter m cfg2)) cs = some (tl2, rs) ∧
      ActiveCount tl1 = ActiveCount tl2 ∧ MaxTunnels tl1 = MaxTunnels tl2) ∧
    (∀ tl : TunnelLimiter, tl.config = none ∨ tl.config = some (Config.mk none) →
      0 < MaxTunnels (some tl) → ActiveCount (some tl) ≥ MaxTunnels (some tl) →
      Acquire (fuel + 1) (some tl) = some (some tl, false)) := by
  constructor
  · obtain ⟨t1, t2, rs, h1, h2, hm, ha⟩ := calls_config_irrelevant fuel cs
      (NewTunnelLimiter m cfg1) (NewTunnelLimiter m cfg2) rfl rfl
    exact ⟨some t1, some t2, rs, h1, h2, ha, hm⟩
  · intro tl hcfg hpos hfull
    simp only [MaxTunnels, ActiveCount, LoadInt64] at hpos hfull
    rw [Acquire_enabled fuel tl hpos]
    have hrep : reportLimited tl = tl := by
      unfold reportLimited
      rcases hcfg with h | h <;> simp [h]
    simp [hfull, hrep]

theorem metrics_sink_does_not_affect_admission_witness :
    (∃ tl1 tl2 rs,
      calls (0 + 1) (some (NewTunnelLimiter 1 none))
        [Call.acquire, Call.acquire, Call.activeCount] = some (tl1, rs) ∧
      calls (0 + 1) (some (NewTunnelLimiter 1 (some (Config.mk (some (MetricsSink.mk []))))))
        [Call.acquire, Call.acquire, Call.activeCount] = some (tl2, rs) ∧
      ActiveCount tl1 = ActiveCount tl2 ∧ MaxTunnels tl1 = MaxTunnels tl2) ∧
    ((TunnelLimiter.mk 1 1 (some (Config.mk none))).config = none ∨
      (TunnelLimiter.mk 1 1 (some (Config.mk none))).config = some (Config.mk none)) ∧
    0 < MaxTunnels (some (TunnelLimiter.mk 1 1 (some (Config.mk none)))) ∧
    ActiveCount (some (TunnelLimiter.mk 1 1 (some (Config.mk none)))) ≥
      MaxTunnels (some (TunnelLimiter.mk 1 1 (some (Config.mk none)))) ∧
    Acquire (0 + 1) (some (TunnelLimiter.mk 1 1 (some (Config.mk none)))) =
      some (some (TunnelLimiter.mk 1 1 (some (Config.mk none))), false) :=
  ⟨(metrics_sink_does_not_affect_admission 0 1 none (some (Config.mk (some (MetricsSink.mk []))))
      [Call.acquire, Call.acquire, Call.activeCount]).1,
    Or.inr rfl, by decide, by decide,
    (metrics_sink_does_not_affect_admission 0 1 none none []).2
      (TunnelLimiter.mk 1 1 (some (Config.mk none))) (Or.inr rfl) (by decide) (by decide)⟩

/-! ## Termination of `Acquire` -/

/-- C16: without interference from other callers, `Acquire` on any gate (nil, disabled
or enabled) in any state returns after at most one iteration of its retry loop: a
budget of one iteration gives a result, every larger budget gives the same result,
and the compare-and-swap on the value just loaded always succeeds. So `Acquire` is
total and never waits for a slot. -/
theorem acquire_returns_within_one_iteration (tl : Option TunnelLimiter) :
    (∃ tl' b, Acquire 1 tl = some (tl', b) ∧ ∀ fuel, Acquire (fuel + 1) tl = some (tl', b)) ∧
    (∀ t : TunnelLimiter, ∃ t' b, acquireLoop 1 t = some (t', b) ∧
      ∀ fuel, acquireLoop (fuel + 1) t = some (t', b)) ∧
    (∀ cell new : Int, CompareAndSwapInt64 cell (LoadInt64 cell) new = (new, true)) := by
  have hloop : ∀ t : TunnelLimiter, ∃ t' b, acquireLoop 1 t = some (t', b) ∧
      ∀ fuel, acquireLoop (fuel + 1) t = some (t', b) := by
    intro t
    by_cases hfull : t.activeTunnels ≥ t.maxTunnels
    · refine ⟨reportLimited t, false, ?_, ?_⟩
      · rw [acquireLoop_succ 0 t]
        simp [hfull]
      · intro fuel
        rw [acquireLoop_succ fuel t]
        simp [hfull]
    · refine ⟨{ t with activeTunnels := addInt64 t.activeTunnels 1 }, true, ?_, ?_⟩
      · rw [acquireLoop_succ 0 t]
        simp [hfull]
      · intro fuel
        rw [acquireLoop_succ fuel t]
        simp [hfull]
  refine ⟨?_, hloop, ?_⟩
  · cases tl with
    | none => exact ⟨none, true, rfl, fun _ => rfl⟩
    | some t =>
      by_cases h0 : t.maxTunnels ≤ 0
      · exact ⟨some t, true, by simp [Acquire, h0], fun _ => by simp [Acquire, h0]⟩
      · obtain ⟨t', b, h1, hall⟩ := hloop t
        refine ⟨some t', b, by simp [Acquire, h0, h1], ?_⟩
        intro fuel
        simp [Acquire, h0, hall fuel]
  · intro cell new
    simp [CompareAndSwapInt64, LoadInt64]

/-! ## Round trip -/

/-- C18: for every gate, nil, disabled or enabled with `int64` fields, `Acquire`
returns, and in every state in which it returns `true` a `Release` right after it
restores exactly the prior state: same live count, same capacity, same config. -/
theorem acquire_release_round_trip (fuel : Nat) (tl : Option TunnelLimiter)
    (hwf : ∀ t, tl = some t → t.WF) :
    ∃ tl' b, Acquire (fuel + 1) tl = some (tl', b) ∧ (b = true → Release tl' = tl) := by
  cases tl with
  | none => exact ⟨none, true, rfl, fun _ => rfl⟩
  | some t =>
    by_cases h0 : t.maxTunnels ≤ 0
    · exact ⟨some t, true, by simp [Acquire, h0], fun _ => by simp [Release, h0]⟩
    · have hpos : 0 < t.maxTunnels := by omega
      rw [Acquire_enabled fuel t hpos]
      by_cases hfull : t.activeTunnels ≥ t.maxTunnels
      · exact ⟨some (reportLimited t), false, by simp [hfull], by intro h; cases h⟩
      · refine ⟨some { t with activeTunnels := addInt64 t.activeTunnels 1 }, true,
          by simp [hfull], ?_⟩
        intro _
        have hw := hwf t rfl
        rw [Release_enabled { t with activeTunnels := addInt64 t.activeTunnels 1 } hpos]
        have e : addInt64 (addInt64 t.activeTunnels 1) (-1) = t.activeTunnels := by
          have h1 := hw.1
          have h2 := hw.2
          unfold isInt64 minInt64 maxInt64 at h1 h2
          unfold addInt64 wrapInt64
          omega
        simp only [e]

theorem acquire_release_round_trip_witness :
    (∀ t, some (TunnelLimiter.mk 3 1 none) = some t → t.WF) ∧
    Acquire (0 + 1) (some (TunnelLimiter.mk 3 1 none)) = some (some (TunnelLimiter.mk 3 2 none), true) ∧
    Release (some (TunnelLimiter.mk 3 2 none)) = some (TunnelLimiter.mk 3 1 none) ∧
    ∃ tl' b, Acquire (0 + 1) (some (TunnelLimiter.mk 3 1 none)) = some (tl', b) ∧
      (b = true → Release tl' = some (TunnelLimiter.mk 3 1 none)) :=
  ⟨by intro t h; cases h; decide, by decide, by decide,
    acquire_release_round_trip 0 (some (TunnelLimiter.mk 3 1 none))
      (by intro t h; cases h; decide)⟩

/-! ## Slot accounting without caller discipline -/

/-- C15, as stated, fails: 2^63 + 1 `Release` calls on a fresh gate of capacity 1 leave
`ActiveCount` at 2^63 - 1, not at 0 - (2^63 + 1): the `int64` count has wrapped. -/
theorem slot_conservation_counterexample :
    calls 1 (some (NewTunnelLimiter 1 none)) (List.replicate 9223372036854775809 Call.release) =
      some (some (TunnelLimiter.mk 1 9223372036854775807 none),
        List.replicate 9223372036854775809 Ret.unit) ∧
    admitted (List.replicate 9223372036854775809 Ret.unit) = 0 ∧
    released (List.replicate 9223372036854775809 Call.release) = 9223372036854775809 ∧
    ActiveCount (some (TunnelLimiter.mk 1 9223372036854775807 none)) ≠
      (0 : Int) - 9223372036854775809 := by
  have h := calls_release_wrap 1 9223372036854775809 (NewTunnelLimiter 1 none)
    (by decide) (by decide)
  have e : wrapInt64 ((NewTunnelLimiter 1 none).activeTunnels -
      ((9223372036854775809 : Nat) : Int)) = 9223372036854775807 := by decide
  rw [e] at h
  exact ⟨h, admitted_replicate_unit _, released_replicate_release _, by decide⟩

/-- C15, amended: on an enabled gate, every finite sequence of calls from a fresh gate
(balanced or not) runs to its end, and `ActiveCount` is then the number of `Acquire`
calls that returned `true` minus the number of `Release` calls, reduced to `int64`
by two's complement; it is exactly that difference whenever the difference is at
least -2^63, in particular whenever the sequence has at most 2^63 `Release`
calls. -/
theorem slot_conservation_in_int64 (fuel : Nat) (N : Nat) (cfg : Option Config)
    (hN : 0 < N) (hmax : isInt64 (N : Int)) (cs : List Call) :
    ∃ tl rs, calls (fuel + 1) (some (NewTunnelLimiter N cfg)) cs = some (tl, rs) ∧
      ActiveCount tl = wrapInt64 ((admitted rs : Int) - released cs) ∧
      (minInt64 ≤ (admitted rs : Int) - released cs →
        ActiveCount tl = (admitted rs : Int) - released cs) ∧
      (released cs ≤ 9223372036854775808 →
        ActiveCount tl = (admitted rs : Int) - released cs) := by
  have hb := hmax
  unfold isInt64 minInt64 maxInt64 at hb
  obtain ⟨t', rs, hrun, _, ha, hle⟩ := calls_conservation fuel cs (NewTunnelLimiter N cfg)
    (by simp only [NewTunnelLimiter]; omega) hmax 0 (by show (0 : Int) = wrapInt64 0; decide)
    (by simp only [NewTunnelLimiter]; omega)
  simp only [Int.zero_add, NewTunnelLimiter] at ha hle
  have hexact : minInt64 ≤ (admitted rs : Int) - released cs →
      t'.activeTunnels = (admitted rs : Int) - released cs := by
    intro hlow
    rw [ha]
    apply wrapInt64_of_isInt64
    unfold isInt64 maxInt64
    exact ⟨hlow, by omega⟩
  refine ⟨some t', rs, hrun, ha, hexact, ?_⟩
  intro hrel
  apply hexact
  unfold minInt64
  omega

theorem slot_conservation_in_int64_witness :
    0 < 2 ∧ isInt64 ((2 : Nat) : Int) ∧
    calls (0 + 1) (some (NewTunnelLimiter (2 : Nat) none))
      [Call.release, Call.release, Call.acquire, Call.release] =
      some (some (TunnelLimiter.mk 2 (-2) none),
        [Ret.unit, Ret.unit, Ret.bool true, Ret.unit]) ∧
    admitted [Ret.unit, Ret.unit, Ret.bool true, Ret.unit] = 1 ∧
    released [Call.release, Call.release, Call.acquire, Call.release] = 3 ∧
    ∃ tl rs, calls (0 + 1) (some (NewTunnelLimiter (2 : Nat) none))
        [Call.release, Call.release, Call.acquire, Call.release] = some (tl, rs) ∧
      ActiveCount tl = wrapInt64 ((admitted rs : Int) -
        released [Call.release, Call.release, Call.acquire, Call.release]) ∧
      (minInt64 ≤ (admitted rs : Int) -
          released [Call.release, Call.release, Call.acquire, Call.release] →
        ActiveCount tl = (admitted rs : Int) -
          released [Call.release, Call.release, Call.acquire, Call.release]) ∧
      (released [Call.release, Call.release, Call.acquire, Call.release] ≤ 9223372036854775808 →
        ActiveCount tl = (admitted rs : Int) -
          released [Call.release, Call.release, Call.acquire, Call.release]) :=
  ⟨by decide, by decide, by decide, by decide, by decide,
    slot_conservation_in_int64 0 2 none (by decide) (by decide)
      [Call.release, Call.release, Call.acquire, Call.release]⟩

/-- C17, as stated, fails: 2^63 + 1 unbalanced `Release` calls on a fresh gate of
capacity 3 wrap the `int64` count around to 2^63 - 1, far above the capacity. -/
theorem count_above_capacity_counterexample :
    calls 1 (some (NewTunnelLimiter 3 none)) (List.replicate 9223372036854775809 Call.release) =
      some (some (TunnelLimiter.mk 3 9223372036854775807 none),
        List.replicate 9223372036854775809 Ret.unit) ∧
    0 < MaxTunnels (some (TunnelLimiter.mk 3 9223372036854775807 none)) ∧
    ActiveCount (some (TunnelLimiter.mk 3 9223372036854775807 none)) >
      MaxTunnels (some (TunnelLimiter.mk 3 9223372036854775807 none)) := by
  have h := calls_release_wrap 1 9223372036854775809 (NewTunnelLimiter 3 none)
    (by decide) (by decide)
  have e : wrapInt64 ((NewTunnelLimiter 3 none).activeTunnels -
      ((9223372036854775809 : Nat) : Int)) = 9223372036854775807 := by decide
  rw [e] at h
  exact ⟨h, by decide, by decide⟩

/-- An unbalanced run that stays clear of the wrap although it has more than 2^63
`Release` calls: one `Acquire`, then 2^63 + 1 `Release` calls, on a fresh gate of
capacity 3 end with the count at -2^63, one success minus 2^63 + 1 releases. -/
theorem acquire_then_releases_down_to_minInt64 :
    calls 1 (some (NewTunnelLimiter 3 none))
      (Call.acquire :: List.replicate 9223372036854775809 Call.release) =
      some (some (TunnelLimiter.mk 3 (-9223372036854775808) none),
        Ret.bool true :: List.replicate 9223372036854775809 Ret.unit) ∧
    admitted (Ret.bool true :: List.replicate 9223372036854775809 Ret.unit) = 1 ∧
    released (Call.acquire :: List.replicate 9223372036854775809 Call.release) =
      9223372036854775809 := by
  have hacq : call 1 (some (NewTunnelLimiter 3 none)) Call.acquire =
      some (some (TunnelLimiter.mk 3 1 none), Ret.bool true) := by decide
  have h := calls_release_wrap 1 9223372036854775809 (TunnelLimiter.mk 3 1 none)
    (by decide) (by decide)
  have e : wrapInt64 ((TunnelLimiter.mk 3 1 none).activeTunnels -
      ((9223372036854775809 : Nat) : Int)) = -9223372036854775808 := by decide
  rw [e] at h
  refine ⟨?_, ?_, ?_⟩
  · rw [calls_cons, hacq, Option.some_bind, h]
    rfl
  · rw [admitted_cons, admitted_replicate_unit]
    rfl
  · rw [released_cons, released_replicate_release]
    rfl

/-- C17, amended: on an enabled gate, every finite sequence of calls from a fresh gate,
balanced or not, runs to its end, and in the state reached after every prefix of
it the number of `Acquire` calls that returned `true` minus the number of `Release`
calls is at most the capacity, `ActiveCount` is that difference reduced to `int64`
by two's complement, and so `ActiveCount` is at most the capacity whenever the
difference is at least -2^63. -/
theorem count_at_most_capacity_until_wrap (fuel : Nat) (N : Nat) (cfg : Option Config)
    (hN : 0 < N) (hmax : isInt64 (N : Int)) (cs : List Call) (k : Nat) :
    ∃ tl rs, calls (fuel + 1) (some (NewTunnelLimiter N cfg)) (cs.take k) = some (tl, rs) ∧
      MaxTunnels tl = N ∧
      (admitted rs : Int) - released (cs.take k) ≤ MaxTunnels tl ∧
      ActiveCount tl = wrapInt64 ((admitted rs : Int) - released (cs.take k)) ∧
      (minInt64 ≤ (admitted rs : Int) - released (cs.take k) →
        ActiveCount tl ≤ MaxTunnels tl) := by
  have hb := hmax
  unfold isInt64 minInt64 maxInt64 at hb
  obtain ⟨t', rs, hrun, hm, ha, hle⟩ := calls_conservation fuel (cs.take k)
    (NewTunnelLimiter N cfg) (by simp only [NewTunnelLimiter]; omega) hmax 0
    (by show (0 : Int) = wrapInt64 0; decide)
    (by simp only [NewTunnelLimiter]; omega)
  simp only [Int.zero_add, NewTunnelLimiter] at ha hle hm
  refine ⟨some t', rs, hrun, hm, ?_, ha, ?_⟩
  · simp only [MaxTunnels, hm]
    exact hle
  · intro hlow
    simp only [ActiveCount, LoadInt64, MaxTunnels, hm, ha]
    rw [wrapInt64_of_isInt64]
    · exact hle
    · unfold isInt64 maxInt64
      exact ⟨hlow, by omega⟩

theorem count_at_most_capacity_until_wrap_witness :
    0 < 1 ∧ isInt64 ((1 : Nat) : Int) ∧
    calls (0 + 1) (some (NewTunnelLimiter (1 : Nat) none))
      ([Call.acquire, Call.acquire, Call.release, Call.release, Call.release].take 5) =
      some (some (TunnelLimiter.mk 1 (-2) none),
        [Ret.bool true, Ret.bool false, Ret.unit, Ret.unit, Ret.unit]) ∧
    minInt64 ≤ (admitted [Ret.bool true, Ret.bool false, Ret.unit, Ret.unit, Ret.unit] : Int) -
      released ([Call.acquire, Call.acquire, Call.release, Call.release, Call.release].take 5) ∧
    ∃ tl rs, calls (0 + 1) (some (NewTunnelLimiter (1 : Nat) none))
        ([Call.acquire, Call.acquire, Call.release, Call.release, Call.release].take 5) =
        some (tl, rs) ∧
      MaxTunnels tl = (1 : Nat) ∧
      (admitted rs : Int) -
        released ([Call.acquire, Call.acquire, Call.release, Call.release, Call.release].take 5) ≤
        MaxTunnels tl ∧
      ActiveCount tl = wrapInt64 ((admitted rs : Int) -
        released ([Call.acquire, Call.acquire, Call.release, Call.release, Call.release].take 5)) ∧
      (minInt64 ≤ (admitted rs : Int) -
          released ([Call.acquire, Call.acquire, Call.release, Call.release, Call.release].take 5) →
        ActiveCount tl ≤ MaxTunnels tl) :=
  ⟨by decide, by decide, by decide, by decide,
    count_at_most_capacity_until_wrap 0 1 none (by decide) (by decide)
      [Call.acquire, Call.acquire, Call.release, Call.release, Call.release] 5⟩

end Smokescreen
